import Mathlib

/-!
Verification development for the H5P content pipeline of the kolibri
repository (src/packages/hashi/src/H5P/H5PRunner.js).

The JavaScript source is shallowly embedded below.  Maps (JavaScript
objects) become insertion-ordered association lists, promises become
either sequential `Except` computations (for the dependency resolution
pipeline) or an explicit trace semantics (for the ordered loader), and
the third-party libraries the runner uses (toposort-class, lodash
debounce, the WHATWG URL parser and JSZip entry lookup) are embedded at
the level of their documented algorithms, since only their observable
behaviour reaches the runner.  All recursion is fuelled so that every
definition is executable and kernel-reducible.
-/

-- Decidable equality of Except results, needed to evaluate the
-- pipeline on concrete archives.
deriving instance DecidableEq for Except

namespace Kolibri

/-- Association list lookup: the model of JavaScript object property
read (`m[k]`, yielding `undefined` when the key is absent). -/
def alookup {α : Type} (m : List (String × α)) (k : String) : Option α :=
  match m with
  | [] => none
  | (k2, v) :: rest => if k2 = k then some v else alookup rest k

/-- Association list update: the model of JavaScript object property
write (`m[k] = v`).  An existing key keeps its insertion position, as
JavaScript objects do; a new key is appended. -/
def aset {α : Type} (m : List (String × α)) (k : String) (v : α) : List (String × α) :=
  match m with
  | [] => [(k, v)]
  | (k2, v2) :: rest => if k2 = k then (k2, v) :: rest else (k2, v2) :: aset rest k v

/-- A value stored in the runner's resource maps (`packageFiles`,
`contentPaths`): either the raw text of a file (stylesheets kept as
strings for later rewriting) or a blob URL handle produced by
`URL.createObjectURL`.  Object-URL generation is modelled as an opaque
tagging constructor carrying the URL string. -/
inductive Resource
  | text (content : String)
  | blobUrl (url : String)
  deriving DecidableEq, Repr

/-- The string a resource reads back as when JavaScript uses it in
string position (raw text reads as itself, a blob resource reads as its
URL string). -/
def resourceStr : Resource → String
  | .text s => s
  | .blobUrl u => u

/-! ### The stylesheet path rewriter (`replacePaths`)

The source scans stylesheet text with the global regex
`/(url\(['"]?)([^"')]+)?(['"]?\))/g` and replaces each match through a
callback.  `String.replace` with a global regex is embedded as: scan
the text left to right; at each position, if the regex matches, emit
the callback's output for the match and continue after it, otherwise
keep the character.  The deterministic matcher below implements exactly
the leftmost-greedy backtracking behaviour of this particular pattern:
the optional open quote is consumed when present, the body group
`([^"')]+)?` takes the maximal run of characters that are not a quote
or a closing parenthesis (absent when the run is empty), the optional
close quote is consumed when a quote is immediately followed by `)`,
and otherwise a literal `)` must follow (shortening the greedy body run
only exposes a body character, which can never satisfy the tail of the
pattern, so no other backtracking branch can succeed). -/

/-- The single-quote character (written via its code point). -/
def quoteChar : Char := Char.ofNat 39

/-- The double-quote character (written via its code point). -/
def dquoteChar : Char := Char.ofNat 34

/-- Does this character match the regex class `['"]`? -/
def isQuoteC (c : Char) : Bool := c == quoteChar || c == dquoteChar

/-- Does this character match the regex class `[^"')]`? -/
def isBodyC (c : Char) : Bool := !(c == quoteChar || c == dquoteChar || c == ')')

/-- The literal characters `url(` opening every match. -/
def urlOpen : List Char := ['u', 'r', 'l', '(']

/-- Match the part of the pattern after the greedy body run: either `)`
directly or a close quote followed by `)`.  Returns the body run, the
close quote when present, and the number of characters consumed. -/
def matchClose (run : List Char) : List Char → Option (List Char × Option Char × Nat)
  | [] => none
  | [c] => if c == ')' then some (run, none, run.length + 1) else none
  | c :: d :: _ =>
    if c == ')' then some (run, none, run.length + 1)
    else if isQuoteC c && d == ')' then some (run, some c, run.length + 2) else none

/-- Match the greedy body run and the pattern tail behind it (see
`matchClose`). -/
def matchCore (s : List Char) : Option (List Char × Option Char × Nat) :=
  matchClose (s.takeWhile isBodyC) (s.drop (s.takeWhile isBodyC).length)

/-- The groups of one regex match: the optional open quote inside group
1, the group-2 body (empty list encodes an absent group, since the
group is `([^"')]+)?`), the optional close quote inside group 3, and
the number of characters consumed after the literal `url(`. -/
structure UrlMatch where
  openQ : Option Char
  body : List Char
  closeQ : Option Char
  consumed : Nat
  deriving DecidableEq, Repr

/-- Match the pattern tail starting right after the literal `url(`. -/
def matchTail (s : List Char) : Option UrlMatch :=
  match s with
  | [] => none
  | c :: t =>
    if isQuoteC c then
      (matchCore t).map (fun rck => ⟨some c, rck.1, rck.2.1, rck.2.2 + 1⟩)
    else
      (matchCore (c :: t)).map (fun rck => ⟨none, rck.1, rck.2.1, rck.2.2⟩)

/-- One segment of the scanned stylesheet: either a literal character
outside every match, or one full match of the `url(...)` pattern. -/
inductive CssSeg
  | lit (c : Char)
  | ref (openQ : Option Char) (body : List Char) (closeQ : Option Char)
  deriving DecidableEq, Repr

/-- Render an optional character as zero or one characters. -/
def optCharList : Option Char → List Char
  | none => []
  | some c => [c]

/-- The exact source text a segment stands for (for a match: group 1 ++
group 2 ++ group 3, which covers the whole match of this pattern). -/
def segText : CssSeg → List Char
  | .lit c => [c]
  | .ref o b c => urlOpen ++ optCharList o ++ b ++ optCharList c ++ [')']

/-- Scan a stylesheet into literal-character and match segments, the
embedding of one pass of `String.replace` with the global css regex.
The fuel argument only bounds the recursion; `fuel = input length`
always suffices because each step consumes at least one character. -/
def scanSegs : Nat → List Char → List CssSeg
  | 0, _ => []
  | _ + 1, [] => []
  | fuel + 1, c :: t =>
    if (c :: t).take 4 = urlOpen then
      match matchTail ((c :: t).drop 4) with
      | some m => CssSeg.ref m.openQ m.body m.closeQ :: scanSegs fuel ((c :: t).drop (4 + m.consumed))
      | none => CssSeg.lit c :: scanSegs fuel t
    else CssSeg.lit c :: scanSegs fuel t

/-- Render one segment through the replacement callback, which receives
the three capture groups exactly as the JavaScript callback does
(group 2 is `undefined`, here `none`, when absent). -/
def renderSeg (f : String → Option String → String → String) : CssSeg → List Char
  | .lit c => [c]
  | .ref o b c =>
    (f (String.mk (urlOpen ++ optCharList o))
       (if b.isEmpty then none else some (String.mk b))
       (String.mk (optCharList c ++ [')']))).data

/-- The embedding of `text.replace(cssPathRegex, f)`. -/
def stringReplaceUrls (f : String → Option String → String → String) (s : String) : String :=
  String.mk (((scanSegs s.data.length s.data).map (renderSeg f)).flatten)

/-! ### Relative URL resolution

`replacePaths` computes
`new URL(p2, new URL(dep, 'http://b.b/')).pathname.substring(1)`.
The WHATWG URL parser is external; it is embedded here for the case the
runner exercises — scheme-less path references resolved against the
stylesheet's own archive-relative path — as RFC-style merge plus
dot-segment removal over `/`-separated segments, with query and
fragment parts stripped.  A reference carrying a scheme prefix (a `:`
before any `/`) leaves simple path joining; the embedding reports it as
unresolvable (`none`), which the rewriter treats like a thrown
resolution, the permissive branch of the source. -/

/-- Drop a query or fragment part from a reference. -/
def stripQueryFrag (s : List Char) : List Char :=
  s.takeWhile (fun c => !(c == '?' || c == '#'))

/-- Split a character list at every `/` (like `String.splitOn "/"`). -/
def splitSlash : List Char → List (List Char)
  | [] => [[]]
  | c :: t =>
    let r := splitSlash t
    if c == '/' then [] :: r
    else
      match r with
      | [] => [[c]]
      | h :: t2 => (c :: h) :: t2

/-- Join path segments back with `/` separators. -/
def joinSlash : List (List Char) → List Char
  | [] => []
  | [x] => x
  | x :: y :: rest => x ++ '/' :: joinSlash (y :: rest)

/-- WHATWG-style dot-segment removal: `..` pops a segment, `.` is
dropped, and either of them in final position leaves a trailing empty
segment (a trailing slash). -/
def normLoop : List (List Char) → List (List Char) → List (List Char)
  | acc, [] => acc
  | acc, s :: rest =>
    if s = ['.', '.'] then
      normLoop (if rest.isEmpty then acc.dropLast ++ [[]] else acc.dropLast) rest
    else if s = ['.'] then
      normLoop (if rest.isEmpty then acc ++ [[]] else acc) rest
    else normLoop (acc ++ [s]) rest

/-- Does the reference start with a scheme-like prefix (a colon before
any slash)? -/
def schemeLike (s : List Char) : Bool :=
  (s.takeWhile (fun c => !(c == '/'))).contains ':'

/-- Segments of an absolute path: split on `/` and drop the leading
empty segment produced by the leading slash. -/
def absSegs (p : List Char) : List (List Char) := (splitSlash p).drop 1

/-- The embedding of
`new URL(ref, new URL(dep, 'http://b.b/')).pathname.substring(1)` on
character lists: resolve `ref` against the dummy-based URL of the
owning stylesheet path `dep` and return the leading-slash-stripped
pathname, or `none` when resolution leaves the modelled path-joining
fragment (the rewriter's catch branch). -/
def urlResolveL (ref : List Char) (dep : List Char) : Option (List Char) :=
  if schemeLike ref then none
  else
    let refPath := stripQueryFrag ref
    let depPath := stripQueryFrag dep
    let baseRaw := if depPath.head? = some '/' then depPath else '/' :: depPath
    let baseSegs := normLoop [] (absSegs baseRaw)
    let resSegs :=
      if refPath.isEmpty then baseSegs
      else if refPath.head? = some '/' then normLoop [] (absSegs refPath)
      else normLoop [] (baseSegs.dropLast ++ absSegs ('/' :: refPath))
    some (joinSlash resSegs)

/-- String-level wrapper for `urlResolveL`. -/
def urlResolve (ref : String) (dep : String) : Option String :=
  (urlResolveL ref.data dep.data).map String.mk

/-- The replacement callback of `replacePaths`: resolve the group-2
reference against the owning stylesheet path, look the resolved path up
in the package's resource map, and splice the stored URL between groups
1 and 3 when a truthy entry is found; otherwise (no entry, falsy entry,
or resolution failure) return the match unchanged.  An absent group 2
reaches the URL constructor as the string `"undefined"`, as
`new URL(undefined, base)` does. -/
def cssMatchReplace (dep : String) (packageFiles : List (String × Resource))
    (p1 : String) (p2 : Option String) (p3 : String) : String :=
  let m := p1 ++ (p2.getD "") ++ p3
  match urlResolve (p2.getD "undefined") dep with
  | none => m
  | some path =>
    match alookup packageFiles path with
    | none => m
    | some r => if resourceStr r = "" then m else p1 ++ resourceStr r ++ p3

/-- The embedding of the exported `replacePaths(dep, packageFiles)`:
read the stylesheet's own entry from the package resource map and
rewrite every `url(...)` reference in it.  `none` models the TypeError
the source raises when the entry is absent. -/
def replacePaths (dep : String) (packageFiles : List (String × Resource)) : Option String :=
  (alookup packageFiles dep).map
    (fun r => stringReplaceUrls (cssMatchReplace dep packageFiles) (resourceStr r))

/-! ### Package descriptors and the dependency graph builder

`recurseDependencies` reads a descriptor from the zip, marks every
declared dependency in the per-call copy of `visitedPaths`, recurses
into the unvisited ones, and finally (for non-root descriptors) pushes
a record with the package path, all declared dependency paths (visited
or not — a truncated cyclic edge is still recorded), and the declared
script/style lists.  Two source behaviours are captured exactly: the
`visitedPaths` copy is taken per call, and all sibling marks happen
synchronously before any child's asynchronous continuation copies the
object, so every child sees all of its siblings marked.  Sibling
subtrees share no other state than the record list; their interleaving
is embedded sequentially (left to right, the order `Promise.all`
preserves).  The `rootConfig` / main-`library` bookkeeping of the root
descriptor is not embedded: no verified claim mentions it.  Errors are
structured: a missing zip entry models JSZip's `null` entry (the
specification's `EntryNotFoundError`). -/

/-- One entry of `preloadedDependencies` in a descriptor. -/
structure DepRef where
  machineName : String
  majorVersion : Nat
  minorVersion : Nat
  deriving DecidableEq, Repr

/-- One entry of `preloadedJs` / `preloadedCss` in a descriptor. -/
structure PathEntry where
  path : String
  deriving DecidableEq, Repr

/-- A parsed descriptor document (`h5p.json` or a `library.json`). -/
structure Library where
  preloadedDependencies : List DepRef
  preloadedJs : List PathEntry
  preloadedCss : List PathEntry
  deriving DecidableEq, Repr

/-- The archive, restricted to its parsed descriptor entries, keyed by
entry name.  `JSON.parse` is external; entries are stored parsed, so
only entry absence (not malformed JSON) is in the model. -/
abbrev Zip : Type := List (String × Library)

/-- Lookup of a descriptor entry, `this.zip.file(name).async('string')`
followed by parsing; `none` models the missing-entry failure. -/
def zipLookup (zip : Zip) (name : String) : Option Library := alookup zip name

/-- `` `${dep.machineName}-${dep.majorVersion}.${dep.minorVersion}/` ``. -/
def depPackagePath (d : DepRef) : String :=
  d.machineName ++ "-" ++ toString d.majorVersion ++ "." ++ toString d.minorVersion ++ "/"

/-- One record pushed onto `this.dependencies`. -/
structure DepRecord where
  packagePath : String
  dependencies : List String
  preloadedCss : List String
  preloadedJs : List String
  deriving DecidableEq, Repr

/-- Pipeline errors.  `entryNotFound` is the specification's
`EntryNotFoundError` (JSZip returns `null` and the access rejects the
chain); `cyclic` is the error `toposort-class` throws from `sort()`;
`missingKey` models a TypeError from reading a property of `undefined`;
`fuelOut` marks exhausted recursion fuel and occurs in no verified
run. -/
inductive Err
  | entryNotFound (name : String)
  | cyclic (node : String)
  | missingKey (name : String)
  | fuelOut
  deriving DecidableEq, Repr

/-- The two recursion shapes of the builder: reading one descriptor
file, or recursing into a list of freshly marked dependency paths. -/
inductive RTask
  | file (jsonFile : String) (visited : List String) (packagePath : String)
  | deps (pps : List String) (visited : List String)

/-- The synchronous first phase of the source's `dependencies.map`
callback: walk the declared dependency paths in order, marking each
unvisited one in the (shared, per-call) visited set and collecting the
marked ones for recursion; already-visited paths are cycle-truncated.
Returns the extended visited set and the paths to recurse into. -/
def markDeps (visited : List String) (depPaths : List String) :
    List String × List String :=
  depPaths.foldl
    (fun vt pp => if vt.1.contains pp then vt else (vt.1 ++ [pp], vt.2 ++ [pp]))
    (visited, [])

/-- The embedding of `recurseDependencies`, accumulating pushed records
left to right.  In `.file`, the declared dependencies are first all
marked in the call's copy of the visited set (the synchronous part of
the source's `map` callback) while collecting the unvisited ones to
recurse into; the record for a non-root package lists every declared
dependency path.  The fuel only bounds recursion depth. -/
def recurseR : Nat → Zip → RTask → List DepRecord → Except Err (List DepRecord)
  | 0, _, _, _ => .error .fuelOut
  | fuel + 1, zip, .file jsonFile visited packagePath, acc =>
    (zipLookup zip jsonFile).elim (.error (.entryNotFound jsonFile))
      (fun json =>
        (recurseR fuel zip
            (.deps (markDeps visited (json.preloadedDependencies.map depPackagePath)).2
              (markDeps visited (json.preloadedDependencies.map depPackagePath)).1) acc).map
          (fun acc2 =>
            if packagePath = "" then acc2
            else acc2 ++ [{ packagePath := packagePath
                            dependencies := json.preloadedDependencies.map depPackagePath
                            preloadedCss := json.preloadedCss.map PathEntry.path
                            preloadedJs := json.preloadedJs.map PathEntry.path }]))
  | _ + 1, _, .deps [] _, acc => .ok acc
  | fuel + 1, zip, .deps (pp :: rest) visited, acc =>
    (recurseR fuel zip (.file (pp ++ "library.json") visited pp) acc).bind
      (fun acc2 => recurseR fuel zip (.deps rest visited) acc2)

/-- The root invocation `recurseDependencies('h5p.json', true)`. -/
def recurseDependencies (zip : Zip) (fuel : Nat) : Except Err (List DepRecord) :=
  recurseR fuel zip (.file "h5p.json" [] "") []

/-! ### The topological sorter (toposort-class)

`setDependencies` delegates to the external `toposort-class` package:
`add(item, deps)` pushes one `[item, dep]` edge per dependency (or a
singleton `[item]` when the list is empty, embedded as an edge with no
target), and `sort()` runs a depth-first traversal over the unique
nodes, completing each node after its dependencies and filling the
result array from the back, throwing on a cycle found on the current
predecessor chain.  The result array therefore lists later completions
first; the runner reverses it.  The traversal is embedded as a
fuel-bounded task machine (`.node` is the `visit` function, `.list` its
loop over the edge array); both the outer loop and `visit` behave
identically apart from `visit`'s predecessor check, which is vacuous
for the outer loop's empty chain, so the outer loop is `.node` with an
empty predecessor list. -/

/-- One edge pushed by `add`: an `[item, dep]` pair, or a singleton
`[item]` registration when the dependency list was empty. -/
abbrev TEdge : Type := String × Option String

/-- The embedding of `Toposort.add(item, deps)`. -/
def toposortAdd (edges : List TEdge) (item : String) (deps : List String) : List TEdge :=
  if deps.isEmpty then edges ++ [(item, none)]
  else edges ++ deps.map (fun d => (item, some d))

/-- The unique-node accumulation at the top of `sort()`: every node of
every edge, in first-appearance order. -/
def uniqueNodes (edges : List TEdge) : List String :=
  edges.foldl
    (fun ns e =>
      let ns2 := if ns.contains e.1 then ns else ns ++ [e.1]
      match e.2 with
      | none => ns2
      | some d => if ns2.contains d then ns2 else ns2 ++ [d])
    []

/-- The sorter's mutable state: the visited marking (`nodes[i] = false`)
and the completion list; `sorted[--place] = node` fills the result
array from the back, so the array read left to right is the completion
order latest-first, which is exactly a list built by prepending at each
completion. -/
structure SortSt where
  visited : List String
  acc : List String
  deriving DecidableEq, Repr

/-- The two recursion shapes of `sort()`: visiting one node with a
predecessor chain, or walking the edge array for a node on a chain. -/
inductive STask
  | node (n : String) (preds : List String)
  | list (es : List TEdge) (n : String) (chain : List String)

/-- The embedding of the `visit` recursion of `toposort-class`.
`.node n preds`: throw when `n` is on the non-empty predecessor chain,
return when `n` is already marked, otherwise mark `n`, walk the whole
edge array (`.list` with chain `preds ++ [n]`), then complete `n`.
`.list` visits the target of every edge whose head is `n`; an edge with
no target (a singleton registration) visits nothing, as `visit` on
`undefined` finds no node.  The fuel only bounds recursion depth. -/
def sortRun (edges : List TEdge) : Nat → STask → SortSt → Except Err SortSt
  | 0, _, _ => .error .fuelOut
  | fuel + 1, .node n preds, st =>
    if !preds.isEmpty && preds.contains n then .error (.cyclic n)
    else if st.visited.contains n then .ok st
    else
      (sortRun edges fuel (.list edges n (preds ++ [n])) { st with visited := n :: st.visited }).map
        (fun st2 => { st2 with acc := n :: st2.acc })
  | _ + 1, .list [] _ _, st => .ok st
  | fuel + 1, .list ((_, none) :: rest) n chain, st =>
    sortRun edges fuel (.list rest n chain) st
  | fuel + 1, .list ((a, some d) :: rest) n chain, st =>
    if a == n then
      (sortRun edges fuel (.node d chain) st).bind
        (fun st2 => sortRun edges fuel (.list rest n chain) st2)
    else sortRun edges fuel (.list rest n chain) st

/-- The embedding of `Toposort.sort()`: run the outer loop over the
unique nodes and return the result array (completion order,
latest-first). -/
def toposortSort (edges : List TEdge) (fuel : Nat) : Except Err (List String) :=
  ((uniqueNodes edges).foldlM (fun st n => sortRun edges fuel (.node n []) st)
      (⟨[], []⟩ : SortSt)).map SortSt.acc

/-- The edge array `setDependencies` builds:
`dependencySorter.add(dependency.packagePath, dependency.dependencies)`
over the record list in push order. -/
def edgesOf (records : List DepRecord) : List TEdge :=
  records.foldl (fun es r => toposortAdd es r.packagePath r.dependencies) []

/-- A generous fuel bound for the sorter: the visit recursion marks a
fresh node before descending, so its depth never exceeds the node
count, and each edge-array step costs one more unit. -/
def sortFuel (edges : List TEdge) : Nat :=
  (edges.length + 2) * ((uniqueNodes edges).length + 2)

/-- The state `setDependencies` leaves behind. -/
structure SetDepsSt where
  packageFiles : List (String × List (String × Resource))
  cssDependencies : List (String × List String)
  jsDependencies : List (String × List String)
  sortedDependencies : List String
  deriving DecidableEq, Repr

/-- The embedding of `setDependencies`: one pass over the record list
initialising `packageFiles[path] = {}` and the per-package css/js
lists and feeding the sorter, then
`sortedDependencies = dependencySorter.sort().reverse()`; an error is
the exception `sort()` throws, which aborts `init`'s chain. -/
def setDependencies (records : List DepRecord) : Except Err SetDepsSt :=
  let start : List (String × List (String × Resource)) ×
      List (String × List String) × List (String × List String) × List TEdge :=
    ([], [], [], [])
  let s := records.foldl
    (fun s r =>
      (aset s.1 r.packagePath [],
       aset s.2.1 r.packagePath r.preloadedCss,
       aset s.2.2.1 r.packagePath r.preloadedJs,
       toposortAdd s.2.2.2 r.packagePath r.dependencies))
    start
  (toposortSort s.2.2.2 (sortFuel s.2.2.2)).map
    (fun sorted =>
      { packageFiles := s.1
        cssDependencies := s.2.1
        jsDependencies := s.2.2.1
        sortedDependencies := sorted.reverse })

/-! ### Correctness of the embedded sorter

The invariant proof below shows that whenever `sort()` returns, every
edge of its input is respected by the completion order: along the
result list (latest completion first) every node appears after all of
its dependency targets, without duplicates. -/

/-- The predecessor chain a task is running under. -/
def chainOf : STask → List String
  | .node _ preds => preds
  | .list _ _ chain => chain

/-- Every occurrence of an edge source in the completion list is
followed (deeper in the list, i.e. completed earlier) by the edge
target. -/
def OrderedAcc (edges : List TEdge) (acc : List String) : Prop :=
  ∀ a b, (a, some b) ∈ edges → ∀ l1 l2, acc = l1 ++ a :: l2 → b ∈ l2

/-- The sorter-state invariant relative to the current predecessor
chain: completed nodes are marked, marked-but-uncompleted nodes are
exactly the chain of in-progress ancestors, completions are distinct,
and completions respect the edges. -/
structure SortOk (edges : List TEdge) (st : SortSt) (chain : List String) : Prop where
  accVis : ∀ x ∈ st.acc, x ∈ st.visited
  visCover : ∀ x ∈ st.visited, x ∈ st.acc ∨ x ∈ chain
  nodup : st.acc.Nodup
  ordered : OrderedAcc edges st.acc

theorem sortRun_spec (edges : List TEdge) :
    ∀ (fuel : Nat) (t : STask) (st st' : SortSt),
      sortRun edges fuel t st = .ok st' →
      SortOk edges st (chainOf t) →
      SortOk edges st' (chainOf t) ∧
      (∀ x ∈ st.visited, x ∈ st'.visited) ∧
      (∀ x ∈ st.acc, x ∈ st'.acc) ∧
      (∀ x ∈ st'.acc, x ∈ st.acc ∨ x ∉ st.visited) ∧
      (∀ n preds, t = .node n preds → n ∈ st'.acc) ∧
      (∀ es n chain, t = .list es n chain → ∀ b, (n, some b) ∈ es → b ∈ st'.acc) := by
  intro fuel
  induction fuel with
  | zero => intro t st st' h; simp [sortRun] at h
  | succ fuel ih =>
    intro t st st' h hok
    cases t with
    | node n preds =>
      simp only [chainOf] at hok ⊢
      simp only [sortRun] at h
      by_cases hguard : (!preds.isEmpty && preds.contains n) = true
      · rw [if_pos hguard] at h; simp at h
      · rw [if_neg hguard] at h
        by_cases hvis : st.visited.contains n = true
        · rw [if_pos hvis] at h
          have hst : st = st' := by
            simpa using h
          subst hst
          have hnacc : n ∈ st.acc := by
            have hmem : n ∈ st.visited := List.mem_of_elem_eq_true hvis
            rcases hok.visCover n hmem with hc | hc
            · exact hc
            · exfalso
              apply hguard
              have hne : preds.isEmpty = false := by
                cases preds with
                | nil => simp at hc
                | cons a t => rfl
              simp only [hne, Bool.not_false, Bool.true_and]
              exact List.elem_eq_true_of_mem hc
          refine ⟨hok, fun x hx => hx, fun x hx => hx, fun x hx => Or.inl hx, ?_, ?_⟩
          · intro n2 preds2 ht
            cases ht
            exact hnacc
          · intro es n2 chain ht
            cases ht
        · rw [if_neg hvis] at h
          have hnvis : n ∉ st.visited := by
            intro hc
            exact hvis (List.elem_eq_true_of_mem hc)
          have hnacc0 : n ∉ st.acc := fun hc => hnvis (hok.accVis n hc)
          cases hin : sortRun edges fuel (.list edges n (preds ++ [n]))
              { st with visited := n :: st.visited } with
          | error e => rw [hin] at h; simp [Except.map] at h
          | ok st2 =>
            rw [hin] at h
            simp only [Except.map] at h
            injection h with h
            have hok1 : SortOk edges { st with visited := n :: st.visited } (preds ++ [n]) := by
              refine ⟨?_, ?_, hok.nodup, hok.ordered⟩
              · intro x hx
                exact List.mem_cons_of_mem _ (hok.accVis x hx)
              · intro x hx
                rcases List.mem_cons.mp hx with hx | hx
                · subst hx; right; simp
                · rcases hok.visCover x hx with hc | hc
                  · exact Or.inl hc
                  · right; exact List.mem_append_left _ hc
            obtain ⟨hok2, hvmono, hamono, hfresh, _, hlist⟩ :=
              ih (.list edges n (preds ++ [n])) { st with visited := n :: st.visited } st2 hin hok1
            have hdeps : ∀ b, (n, some b) ∈ edges → b ∈ st2.acc :=
              hlist edges n (preds ++ [n]) rfl
            have hnacc2 : n ∉ st2.acc := by
              intro hc
              rcases hfresh n hc with hc2 | hc2
              · exact hnacc0 hc2
              · exact hc2 (by simp)
            subst h
            constructor
            · refine ⟨?_, ?_, ?_, ?_⟩
              · intro x hx
                rcases List.mem_cons.mp hx with hx | hx
                · rw [hx]; exact hvmono n (by simp)
                · exact hok2.accVis x hx
              · intro x hx
                rcases hok2.visCover x hx with hc | hc
                · exact Or.inl (List.mem_cons_of_mem _ hc)
                · rcases List.mem_append.mp hc with hc | hc
                  · exact Or.inr hc
                  · left
                    simp at hc
                    simp [hc]
              · exact List.nodup_cons.mpr ⟨hnacc2, hok2.nodup⟩
              · intro a b hab l1 l2 hdec
                cases l1 with
                | nil =>
                  simp at hdec
                  obtain ⟨han, hl2⟩ := hdec
                  subst han
                  subst hl2
                  exact hdeps b hab
                | cons c l1t =>
                  simp at hdec
                  obtain ⟨hcn, hrest⟩ := hdec
                  exact hok2.ordered a b hab l1t l2 hrest
            refine ⟨?_, ?_, ?_, ?_, ?_⟩
            · intro x hx
              exact hvmono x (List.mem_cons_of_mem _ hx)
            · intro x hx
              exact List.mem_cons_of_mem _ (hamono x hx)
            · intro x hx
              rcases List.mem_cons.mp hx with hx | hx
              · subst hx; exact Or.inr hnvis
              · rcases hfresh x hx with hc | hc
                · exact Or.inl hc
                · right
                  intro hc2
                  exact hc (List.mem_cons_of_mem _ hc2)
            · intro n2 preds2 ht
              cases ht
              simp
            · intro es n2 chain ht
              cases ht
    | list es n chain =>
      simp only [chainOf] at hok ⊢
      cases es with
      | nil =>
        simp only [sortRun] at h
        have hst : st = st' := by simpa using h
        subst hst
        refine ⟨hok, fun x hx => hx, fun x hx => hx, fun x hx => Or.inl hx, ?_, ?_⟩
        · intro n2 preds2 ht; cases ht
        · intro es2 n2 chain2 ht
          cases ht
          intro b hb
          simp at hb
      | cons e rest =>
        obtain ⟨e1, e2⟩ := e
        cases e2 with
        | none =>
          simp only [sortRun] at h
          obtain ⟨hok2, hvmono, hamono, hfresh, _, hlist⟩ :=
            ih (.list rest n chain) st st' h hok
          refine ⟨hok2, hvmono, hamono, hfresh, ?_, ?_⟩
          · intro n2 preds2 ht; cases ht
          · intro es2 n2 chain2 ht
            cases ht
            intro b hb
            rcases List.mem_cons.mp hb with hb | hb
            · exact absurd hb (by simp)
            · exact hlist rest n chain rfl b hb
        | some d =>
          simp only [sortRun] at h
          by_cases hen : (e1 == n) = true
          · rw [if_pos hen] at h
            cases hin : sortRun edges fuel (.node d chain) st with
            | error er => rw [hin] at h; simp [Except.bind] at h
            | ok st2 =>
              rw [hin] at h
              simp only [Except.bind] at h
              obtain ⟨hok2, hvmono2, hamono2, hfresh2, hnode2, _⟩ :=
                ih (.node d chain) st st2 hin hok
              obtain ⟨hok3, hvmono3, hamono3, hfresh3, _, hlist3⟩ :=
                ih (.list rest n chain) st2 st' h hok2
              refine ⟨hok3, ?_, ?_, ?_, ?_, ?_⟩
              · intro x hx; exact hvmono3 x (hvmono2 x hx)
              · intro x hx; exact hamono3 x (hamono2 x hx)
              · intro x hx
                rcases hfresh3 x hx with hc | hc
                · rcases hfresh2 x hc with hc2 | hc2
                  · exact Or.inl hc2
                  · exact Or.inr hc2
                · right
                  intro hc2
                  exact hc (hvmono2 x hc2)
              · intro n2 preds2 ht; cases ht
              · intro es2 n2 chain2 ht
                cases ht
                intro b hb
                rcases List.mem_cons.mp hb with hb | hb
                · have hbd : b = d := by
                    have h2 : some b = some d := congrArg Prod.snd hb
                    injection h2
                  subst hbd
                  exact hamono3 b (hnode2 b chain rfl)
                · exact hlist3 rest n chain rfl b hb
          · rw [if_neg hen] at h
            obtain ⟨hok2, hvmono, hamono, hfresh, _, hlist⟩ :=
              ih (.list rest n chain) st st' h hok
            refine ⟨hok2, hvmono, hamono, hfresh, ?_, ?_⟩
            · intro n2 preds2 ht; cases ht
            · intro es2 n2 chain2 ht
              cases ht
              intro b hb
              rcases List.mem_cons.mp hb with hb | hb
              · exfalso
                apply hen
                have he1 : e1 = n := (congrArg Prod.fst hb).symm
                simp [he1]
              · exact hlist rest n chain rfl b hb

theorem sortFold_spec (edges : List TEdge) (fuel : Nat) :
    ∀ (ns : List String) (st st' : SortSt),
      ns.foldlM (fun st n => sortRun edges fuel (.node n []) st) st = .ok st' →
      SortOk edges st [] →
      SortOk edges st' [] ∧ (∀ x ∈ st.acc, x ∈ st'.acc) ∧ (∀ n ∈ ns, n ∈ st'.acc) := by
  intro ns
  induction ns with
  | nil =>
    intro st st' h hok
    simp only [List.foldlM_nil, pure, Except.pure] at h
    injection h with h
    subst h
    exact ⟨hok, fun x hx => hx, by simp⟩
  | cons n rest ih =>
    intro st st' h hok
    simp only [List.foldlM_cons] at h
    cases hin : sortRun edges fuel (.node n []) st with
    | error e => rw [hin] at h; simp [Bind.bind, Except.bind] at h
    | ok st2 =>
      rw [hin] at h
      simp only [Bind.bind, Except.bind] at h
      obtain ⟨hok2, _, hamono2, _, hnode2, _⟩ := sortRun_spec edges fuel (.node n []) st st2 hin hok
      obtain ⟨hok3, hamono3, hns3⟩ := ih st2 st' h hok2
      refine ⟨hok3, fun x hx => hamono3 x (hamono2 x hx), ?_⟩
      intro m hm
      rcases List.mem_cons.mp hm with hm | hm
      · subst hm; exact hamono3 m (hnode2 m [] rfl)
      · exact hns3 m hm

theorem toposortSort_spec (edges : List TEdge) (fuel : Nat) (out : List String)
    (h : toposortSort edges fuel = .ok out) :
    out.Nodup ∧ OrderedAcc edges out ∧ ∀ n ∈ uniqueNodes edges, n ∈ out := by
  unfold toposortSort at h
  cases hin : (uniqueNodes edges).foldlM (fun st n => sortRun edges fuel (.node n []) st)
      (⟨[], []⟩ : SortSt) with
  | error e => rw [hin] at h; simp [Except.map] at h
  | ok st' =>
    rw [hin] at h
    simp only [Except.map] at h
    injection h with h
    subst h
    have hok0 : SortOk edges (⟨[], []⟩ : SortSt) [] := by
      refine ⟨?_, ?_, ?_, ?_⟩ <;> simp [OrderedAcc]
    obtain ⟨hok, _, hns⟩ := sortFold_spec edges fuel (uniqueNodes edges) ⟨[], []⟩ st' hin hok0
    exact ⟨hok.nodup, hok.ordered, hns⟩

/-- In a duplicate-free list, an element that sits deeper in the list
has the smaller index in the reversed list. -/
theorem rev_indexOf_lt (l1 l2 : List String) (a b : String)
    (hb : b ∈ l2) (hnd : (l1 ++ a :: l2).Nodup) :
    (l1 ++ a :: l2).reverse.indexOf b < (l1 ++ a :: l2).reverse.indexOf a := by
  have hna : a ∉ l2 := by
    have h2 : (a :: l2).Nodup := hnd.of_append_right
    exact (List.nodup_cons.mp h2).1
  have hrev : (l1 ++ a :: l2).reverse = l2.reverse ++ a :: l1.reverse := by
    simp
  rw [hrev]
  have hbrev : b ∈ l2.reverse := List.mem_reverse.mpr hb
  have hnarev : a ∉ l2.reverse := fun hc => hna (List.mem_reverse.mp hc)
  rw [List.indexOf_append_of_mem hbrev, List.indexOf_append_of_not_mem hnarev,
    List.indexOf_cons_self]
  have := List.indexOf_lt_length.mpr hbrev
  omega

/-- Edge membership survives an `add`. -/
theorem toposortAdd_sub (edges : List TEdge) (item : String) (deps : List String) :
    ∀ e ∈ edges, e ∈ toposortAdd edges item deps := by
  intro e he
  unfold toposortAdd
  by_cases hd : deps.isEmpty
  · rw [if_pos hd]; exact List.mem_append_left _ he
  · rw [if_neg hd]; exact List.mem_append_left _ he

/-- `add` records an edge for every listed dependency. -/
theorem toposortAdd_mem (edges : List TEdge) (item : String) (deps : List String)
    (q : String) (hq : q ∈ deps) : (item, some q) ∈ toposortAdd edges item deps := by
  unfold toposortAdd
  have hd : deps.isEmpty = false := by
    cases deps with
    | nil => simp at hq
    | cons a t => rfl
  rw [hd]
  simp only [Bool.false_eq_true, if_false]
  refine List.mem_append_right _ ?_
  exact List.mem_map.mpr ⟨q, hq, rfl⟩

/-- Every dependency edge of every record appears in the edge array of
the sorter. -/
theorem edgesOf_mem (records : List DepRecord) (r : DepRecord) (q : String)
    (hr : r ∈ records) (hq : q ∈ r.dependencies) :
    (r.packagePath, some q) ∈ edgesOf records := by
  unfold edgesOf
  suffices hgen : ∀ (es : List TEdge),
      (r.packagePath, some q) ∈ es ∨ r ∈ records →
      (r.packagePath, some q) ∈
        records.foldl (fun es r => toposortAdd es r.packagePath r.dependencies) es by
    exact hgen [] (Or.inr hr)
  clear hr
  induction records with
  | nil =>
    intro es hes
    rcases hes with hes | hes
    · exact hes
    · simp at hes
  | cons r2 rest ih =>
    intro es hes
    simp only [List.foldl_cons]
    rcases hes with hes | hes
    · exact ih _ (Or.inl (toposortAdd_sub _ _ _ _ hes))
    · rcases List.mem_cons.mp hes with hes | hes
      · subst hes
        exact ih _ (Or.inl (toposortAdd_mem _ _ _ q hq))
      · exact ih _ (Or.inr hes)

/-- Both endpoints of every edge are accumulated as nodes. -/
theorem uniqueNodes_mem (edges : List TEdge) (a b : String)
    (he : (a, some b) ∈ edges) : a ∈ uniqueNodes edges ∧ b ∈ uniqueNodes edges := by
  unfold uniqueNodes
  suffices hgen : ∀ (ns : List String),
      (a ∈ ns → a ∈ edges.foldl (fun ns e =>
        let ns2 := if ns.contains e.1 then ns else ns ++ [e.1]
        match e.2 with
        | none => ns2
        | some d => if ns2.contains d then ns2 else ns2 ++ [d]) ns) ∧
      (b ∈ ns → b ∈ edges.foldl (fun ns e =>
        let ns2 := if ns.contains e.1 then ns else ns ++ [e.1]
        match e.2 with
        | none => ns2
        | some d => if ns2.contains d then ns2 else ns2 ++ [d]) ns) ∧
      ((a, some b) ∈ edges →
        a ∈ edges.foldl (fun ns e =>
          let ns2 := if ns.contains e.1 then ns else ns ++ [e.1]
          match e.2 with
          | none => ns2
          | some d => if ns2.contains d then ns2 else ns2 ++ [d]) ns ∧
        b ∈ edges.foldl (fun ns e =>
          let ns2 := if ns.contains e.1 then ns else ns ++ [e.1]
          match e.2 with
          | none => ns2
          | some d => if ns2.contains d then ns2 else ns2 ++ [d]) ns) by
    exact (hgen []).2.2 he
  clear he
  induction edges with
  | nil =>
    intro ns
    refine ⟨fun h => h, fun h => h, ?_⟩
    intro h
    simp at h
  | cons e rest ih =>
    intro ns
    simp only [List.foldl_cons]
    have hgrow : ∀ (x : String) (ns2 : List String), x ∈ ns2 →
        x ∈ (let ns3 := if ns2.contains e.1 then ns2 else ns2 ++ [e.1]
             match e.2 with
             | none => ns3
             | some d => if ns3.contains d then ns3 else ns3 ++ [d]) := by
      intro x ns2 hx
      have h1 : x ∈ (if ns2.contains e.1 then ns2 else ns2 ++ [e.1]) := by
        by_cases hc : ns2.contains e.1 = true
        · rw [if_pos hc]; exact hx
        · rw [if_neg hc]; exact List.mem_append_left _ hx
      cases he2 : e.2 with
      | none => simpa using h1
      | some d =>
        simp only
        by_cases hc : (if ns2.contains e.1 then ns2 else ns2 ++ [e.1]).contains d = true
        · rw [if_pos hc]; exact h1
        · rw [if_neg hc]; exact List.mem_append_left _ h1
    refine ⟨?_, ?_, ?_⟩
    · intro h
      exact ((ih _).1 (hgrow a ns h))
    · intro h
      exact ((ih _).2.1 (hgrow b ns h))
    · intro h
      rcases List.mem_cons.mp h with h | h
      · have he1 : e.1 = a := by rw [← h]
        have he2 : e.2 = some b := by rw [← h]
        have hamem : a ∈ (let ns3 := if ns.contains e.1 then ns else ns ++ [e.1]
            match e.2 with
            | none => ns3
            | some d => if ns3.contains d then ns3 else ns3 ++ [d]) := by
          have h1 : a ∈ (if ns.contains e.1 then ns else ns ++ [e.1]) := by
            rw [he1]
            by_cases hc : ns.contains a = true
            · rw [if_pos hc]; exact List.mem_of_elem_eq_true hc
            · rw [if_neg hc]; exact List.mem_append_right _ (by simp)
          rw [he2]
          simp only
          by_cases hc : (if ns.contains e.1 then ns else ns ++ [e.1]).contains b = true
          · rw [if_pos hc]; exact h1
          · rw [if_neg hc]; exact List.mem_append_left _ h1
        have hbmem : b ∈ (let ns3 := if ns.contains e.1 then ns else ns ++ [e.1]
            match e.2 with
            | none => ns3
            | some d => if ns3.contains d then ns3 else ns3 ++ [d]) := by
          rw [he2]
          simp only
          by_cases hc : (if ns.contains e.1 then ns else ns ++ [e.1]).contains b = true
          · rw [if_pos hc]; exact List.mem_of_elem_eq_true hc
          · rw [if_neg hc]; exact List.mem_append_right _ (by simp)
        exact ⟨(ih _).1 hamem, (ih _).2.1 hbmem⟩
      · exact (ih _).2.2 h

/-- The fourth component of `setDependencies`' fold is the edge
array. -/
theorem setDependencies_edges (records : List DepRecord) :
    ∀ (s : List (String × List (String × Resource)) ×
        List (String × List String) × List (String × List String) × List TEdge),
      (records.foldl
        (fun s r =>
          (aset s.1 r.packagePath [],
           aset s.2.1 r.packagePath r.preloadedCss,
           aset s.2.2.1 r.packagePath r.preloadedJs,
           toposortAdd s.2.2.2 r.packagePath r.dependencies))
        s).2.2.2 =
      records.foldl (fun es r => toposortAdd es r.packagePath r.dependencies) s.2.2.2 := by
  induction records with
  | nil => intro s; rfl
  | cons r rest ih =>
    intro s
    simp only [List.foldl_cons]
    exact ih _

/-- One more unit of fuel never changes a successful run of the
builder. -/
theorem recurseR_mono (zip : Zip) :
    ∀ (fuel : Nat) (t : RTask) (acc out : List DepRecord),
      recurseR fuel zip t acc = .ok out → recurseR (fuel + 1) zip t acc = .ok out := by
  intro fuel
  induction fuel with
  | zero => intro t acc out h; simp [recurseR] at h
  | succ fuel ih =>
    intro t acc out h
    cases t with
    | file jsonFile visited packagePath =>
      simp only [recurseR] at h ⊢
      cases hz : zipLookup zip jsonFile with
      | none => rw [hz] at h; simp [Option.elim] at h
      | some json =>
        rw [hz] at h
        simp only [Option.elim] at h ⊢
        cases hin : recurseR fuel zip
            (.deps (markDeps visited (json.preloadedDependencies.map depPackagePath)).2
              (markDeps visited (json.preloadedDependencies.map depPackagePath)).1) acc with
        | error e => rw [hin] at h; simp [Except.map] at h
        | ok acc2 =>
          rw [hin] at h
          rw [ih _ _ _ hin]
          exact h
    | deps pps visited =>
      cases pps with
      | nil =>
        simp only [recurseR] at h ⊢
        exact h
      | cons pp rest =>
        have hunfold : recurseR (fuel + 1) zip (.deps (pp :: rest) visited) acc =
            (recurseR fuel zip (.file (pp ++ "library.json") visited pp) acc).bind
              (fun acc2 => recurseR fuel zip (.deps rest visited) acc2) := rfl
        rw [hunfold] at h
        cases hin : recurseR fuel zip (.file (pp ++ "library.json") visited pp) acc with
        | error e => rw [hin] at h; simp [Except.bind] at h
        | ok acc2 =>
          rw [hin] at h
          simp only [Except.bind] at h
          have hgoal : recurseR (fuel + 1 + 1) zip (.deps (pp :: rest) visited) acc =
              (recurseR (fuel + 1) zip (.file (pp ++ "library.json") visited pp) acc).bind
                (fun acc3 => recurseR (fuel + 1) zip (.deps rest visited) acc3) := rfl
          rw [hgoal, ih _ _ _ hin]
          simp only [Except.bind]
          exact ih _ _ _ h

/-- Any amount of additional fuel never changes a successful run of the
builder. -/
theorem recurseR_le (zip : Zip) (fuel fuel' : Nat) (t : RTask) (acc out : List DepRecord)
    (hle : fuel ≤ fuel') (h : recurseR fuel zip t acc = .ok out) :
    recurseR fuel' zip t acc = .ok out := by
  obtain ⟨k, rfl⟩ := Nat.exists_eq_add_of_le hle
  induction k with
  | zero => simpa using h
  | succ k ih =>
    have h2 := ih (Nat.le_add_right _ _)
    calc recurseR (fuel + (k + 1)) zip t acc
        = recurseR ((fuel + k) + 1) zip t acc := by ring_nf
      _ = .ok out := recurseR_mono zip (fuel + k) t acc out h2

/-! ### Concrete archives used by the claims -/

/-- The truncated-cycle archive: the root declares `A`, `A` declares
`B`, and `B` declares `A` again. -/
def cycZip : Zip :=
  [("h5p.json", ⟨[⟨"A", 1, 0⟩], [], []⟩),
   ("A-1.0/library.json", ⟨[⟨"B", 1, 0⟩], [], []⟩),
   ("B-1.0/library.json", ⟨[⟨"A", 1, 0⟩], [], []⟩)]

/-- The record list the builder produces on `cycZip`: post-order, with
`B`'s record still listing the truncated back-edge to `A`. -/
def cycRecords : List DepRecord :=
  [{ packagePath := "B-1.0/", dependencies := ["A-1.0/"], preloadedCss := [], preloadedJs := [] },
   { packagePath := "A-1.0/", dependencies := ["B-1.0/"], preloadedCss := [], preloadedJs := [] }]

/-- The diamond archive: the root declares `A`, `A` declares `B` and
`C`, and both `B` and `C` declare `D`. -/
def diamondZip : Zip :=
  [("h5p.json", ⟨[⟨"A", 1, 0⟩], [], []⟩),
   ("A-1.0/library.json", ⟨[⟨"B", 1, 0⟩, ⟨"C", 1, 0⟩], [], []⟩),
   ("B-1.0/library.json", ⟨[⟨"D", 1, 0⟩], [], []⟩),
   ("C-1.0/library.json", ⟨[⟨"D", 1, 0⟩], [], []⟩),
   ("D-1.0/library.json", ⟨[], [], []⟩)]

/-- The record list the builder produces on `diamondZip`: `D` is
recorded twice, once per reaching branch. -/
def diamondRecords : List DepRecord :=
  [{ packagePath := "D-1.0/", dependencies := [], preloadedCss := [], preloadedJs := [] },
   { packagePath := "B-1.0/", dependencies := ["D-1.0/"], preloadedCss := [], preloadedJs := [] },
   { packagePath := "D-1.0/", dependencies := [], preloadedCss := [], preloadedJs := [] },
   { packagePath := "C-1.0/", dependencies := ["D-1.0/"], preloadedCss := [], preloadedJs := [] },
   { packagePath := "A-1.0/", dependencies := ["B-1.0/", "C-1.0/"], preloadedCss := [], preloadedJs := [] }]

/-! ### Claim C1 -/

/-- C1, counterexample: the claim quantifies over all graphs the
builder can produce "including truncated cycles", but on the
truncated-cycle archive the builder records both `A depends on B` and
the back-edge `B depends on A`, and `setDependencies` then throws the
cyclic-dependency error of `toposort-class` instead of producing any
sorted order, so no order with `index(Q) < index(P)` exists for this
builder-produced graph. -/
theorem c1_counterexample_truncated_cycle :
    recurseDependencies cycZip 12 = Except.ok cycRecords ∧
    setDependencies cycRecords = Except.error (Err.cyclic "B-1.0/") := by
  constructor
  · decide
  · decide

/-- C1 (amended): for every dependency edge recorded in the graph (a
record where package `P` lists `Q` among its dependencies), whenever
`setDependencies` returns a sorted order at all — which it does for
acyclic graphs such as diamonds, but not for truncated cycles, where
the sorter throws — the index of `Q` is strictly less than the index of
`P` in `sortedDependencies`. -/
theorem c1_sorted_order_respects_recorded_edges (records : List DepRecord)
    (sd : SetDepsSt) (r : DepRecord) (q : String)
    (hok : setDependencies records = Except.ok sd)
    (hr : r ∈ records) (hq : q ∈ r.dependencies) :
    sd.sortedDependencies.indexOf q < sd.sortedDependencies.indexOf r.packagePath := by
  unfold setDependencies at hok
  simp only at hok
  rw [setDependencies_edges records ([], [], [], [])] at hok
  have hedges : (records.foldl (fun es r => toposortAdd es r.packagePath r.dependencies)
      (([], [], [], []) : List (String × List (String × Resource)) ×
        List (String × List String) × List (String × List String) × List TEdge).2.2.2) =
      edgesOf records := by
    rfl
  rw [hedges] at hok
  cases hsort : toposortSort (edgesOf records) (sortFuel (edgesOf records)) with
  | error e => rw [hsort] at hok; simp [Except.map] at hok
  | ok out =>
    rw [hsort] at hok
    simp only [Except.map] at hok
    injection hok with hok
    subst hok
    obtain ⟨hnd, hord, hmem⟩ := toposortSort_spec _ _ _ hsort
    have hedge : (r.packagePath, some q) ∈ edgesOf records := edgesOf_mem records r q hr hq
    have hpp : r.packagePath ∈ out := hmem _ (uniqueNodes_mem _ _ _ hedge).1
    obtain ⟨l1, l2, hdec⟩ := List.mem_iff_append.mp hpp
    have hql2 : q ∈ l2 := hord r.packagePath q hedge l1 l2 hdec
    have := rev_indexOf_lt l1 l2 r.packagePath q hql2 (hdec ▸ hnd)
    simpa [hdec] using this

/-- C1 witness: the amended theorem applied to the diamond graph, where
the order exists and places `D` before `B`. -/
theorem c1_sorted_order_witness :
    ([("D-1.0/", ([] : List (String × Resource))), ("B-1.0/", []), ("C-1.0/", []),
        ("A-1.0/", [])],
      (["D-1.0/", "B-1.0/", "C-1.0/", "A-1.0/"] : List String).indexOf "D-1.0/" <
      (["D-1.0/", "B-1.0/", "C-1.0/", "A-1.0/"] : List String).indexOf "B-1.0/").2 := by
  have h := c1_sorted_order_respects_recorded_edges diamondRecords
    { packageFiles := [("D-1.0/", []), ("B-1.0/", []), ("C-1.0/", []), ("A-1.0/", [])]
      cssDependencies := [("D-1.0/", []), ("B-1.0/", []), ("C-1.0/", []), ("A-1.0/", [])]
      jsDependencies := [("D-1.0/", []), ("B-1.0/", []), ("C-1.0/", []), ("A-1.0/", [])]
      sortedDependencies := ["D-1.0/", "B-1.0/", "C-1.0/", "A-1.0/"] }
    { packagePath := "B-1.0/", dependencies := ["D-1.0/"], preloadedCss := [], preloadedJs := [] }
    "D-1.0/" (by decide) (by decide) (by decide)
  exact h

/-! ### Claim C3 -/

/-- C3, counterexample: on the cyclic archive `A → B → A` the builder
terminates and records both packages, but the back-edge `B → A` is
present in `B`'s recorded dependency list — the declared dependency is
pushed into the record even when recursion into it is truncated — so
the claim's "back-edge absent from the recorded graph" is false. -/
theorem c3_counterexample_back_edge_recorded :
    recurseDependencies cycZip 12 = Except.ok cycRecords ∧
    (cycRecords.filter
      (fun r => r.packagePath == "B-1.0/" && r.dependencies.contains "A-1.0/")).length = 1 := by
  constructor
  · decide
  · decide

/-- C3 (amended): on the cyclic input `A → B → A` the builder
terminates (every fuel of at least 12 returns the same finite result,
so the recursion depth is finite) and the record list contains a record
for both `A` and `B`; the back-edge `B → A` is recorded in `B`'s
dependency list while recursion into it is truncated (no record was
produced from descending that edge a second time). -/
theorem c3_cycle_terminates_with_back_edge (fuel : Nat) (hfuel : 12 ≤ fuel) :
    recurseDependencies cycZip fuel = Except.ok cycRecords ∧
    (cycRecords.map DepRecord.packagePath).contains "A-1.0/" = true ∧
    (cycRecords.map DepRecord.packagePath).contains "B-1.0/" = true ∧
    (∃ r ∈ cycRecords, r.packagePath = "B-1.0/" ∧ r.dependencies = ["A-1.0/"]) ∧
    (cycRecords.filter (fun r => r.packagePath == "A-1.0/")).length = 1 := by
  refine ⟨?_, by decide, by decide, ?_, by decide⟩
  · exact recurseR_le cycZip 12 fuel _ [] cycRecords hfuel (by decide)
  · exact ⟨⟨"B-1.0/", ["A-1.0/"], [], []⟩, by decide, rfl, rfl⟩

/-- C3 witness: the amended theorem at fuel 12. -/
theorem c3_cycle_terminates_witness :
    recurseDependencies cycZip 12 = Except.ok cycRecords ∧
    (cycRecords.map DepRecord.packagePath).contains "A-1.0/" = true ∧
    (cycRecords.map DepRecord.packagePath).contains "B-1.0/" = true ∧
    (∃ r ∈ cycRecords, r.packagePath = "B-1.0/" ∧ r.dependencies = ["A-1.0/"]) ∧
    (cycRecords.filter (fun r => r.packagePath == "A-1.0/")).length = 1 :=
  c3_cycle_terminates_with_back_edge 12 (by decide)

/-! ### Claim C4 -/

/-- C4: on the diamond `A → {B, C}`, `B → D`, `C → D`, the builder
pushes a record for `D` twice (once per reaching branch, because each
branch copies the ancestor set), and the sorted order produced by
`setDependencies` contains `D` exactly once, before both `B` and
`C`. -/
theorem c4_diamond_duplicate_records_single_sorted :
    recurseDependencies diamondZip 20 = Except.ok diamondRecords ∧
    (diamondRecords.filter (fun r => r.packagePath == "D-1.0/")).length = 2 ∧
    ∃ sd, setDependencies diamondRecords = Except.ok sd ∧
      sd.sortedDependencies.count "D-1.0/" = 1 ∧
      sd.sortedDependencies.indexOf "D-1.0/" < sd.sortedDependencies.indexOf "B-1.0/" ∧
      sd.sortedDependencies.indexOf "D-1.0/" < sd.sortedDependencies.indexOf "C-1.0/" := by
  refine ⟨by decide, by decide,
    { packageFiles := [("D-1.0/", []), ("B-1.0/", []), ("C-1.0/", []), ("A-1.0/", [])]
      cssDependencies := [("D-1.0/", []), ("B-1.0/", []), ("C-1.0/", []), ("A-1.0/", [])]
      jsDependencies := [("D-1.0/", []), ("B-1.0/", []), ("C-1.0/", []), ("A-1.0/", [])]
      sortedDependencies := ["D-1.0/", "B-1.0/", "C-1.0/", "A-1.0/"] }, ?_, by decide, by decide,
    by decide⟩
  decide

/-! ### Correctness of the rewriter scan

The scan partitions the input exactly: the segment texts concatenate
back to the input, character for character. -/

theorem take_takeWhile (p : Char → Bool) :
    ∀ s : List Char, s.take (s.takeWhile p).length = s.takeWhile p := by
  intro s
  induction s with
  | nil => rfl
  | cons c t ih =>
    by_cases hc : p c = true
    · simp [List.takeWhile_cons, hc, ih]
    · simp [List.takeWhile_cons, hc]

theorem matchCore_spec (s : List Char) :
    ∀ rck, matchCore s = some rck →
      s.take rck.2.2 = rck.1 ++ optCharList rck.2.1 ++ [')'] ∧
      1 ≤ rck.2.2 ∧ rck.2.2 ≤ s.length := by
  intro rck h
  unfold matchCore at h
  have hlenw : (s.takeWhile isBodyC).length ≤ s.length :=
    (List.takeWhile_sublist isBodyC).length_le
  have htake : s.take (s.takeWhile isBodyC).length = s.takeWhile isBodyC :=
    take_takeWhile isBodyC s
  cases hdrop : s.drop (s.takeWhile isBodyC).length with
  | nil => rw [hdrop] at h; simp [matchClose] at h
  | cons c rest =>
    rw [hdrop] at h
    have hdlen : rest.length + 1 = s.length - (s.takeWhile isBodyC).length := by
      have := congrArg List.length hdrop
      simp [List.length_drop] at this
      omega
    have hpluck : ∀ k2, s.take ((s.takeWhile isBodyC).length + k2) =
        s.takeWhile isBodyC ++ (c :: rest).take k2 := by
      intro k2
      rw [List.take_add, htake, hdrop]
    cases rest with
    | nil =>
      simp only [matchClose] at h
      by_cases hpar : (c == ')') = true
      · rw [if_pos hpar] at h
        injection h with h
        subst h
        have hc : c = ')' := by simpa using hpar
        refine ⟨?_, ?_, ?_⟩
        · show s.take ((s.takeWhile isBodyC).length + 1) =
            s.takeWhile isBodyC ++ optCharList none ++ [')']
          rw [hpluck 1, hc]
          simp [optCharList]
        · show 1 ≤ (s.takeWhile isBodyC).length + 1
          omega
        · show (s.takeWhile isBodyC).length + 1 ≤ s.length
          omega
      · rw [if_neg hpar] at h
        simp at h
    | cons d rest2 =>
      simp only [matchClose] at h
      simp only [List.length_cons] at hdlen
      by_cases hpar : (c == ')') = true
      · rw [if_pos hpar] at h
        injection h with h
        subst h
        have hc : c = ')' := by simpa using hpar
        refine ⟨?_, ?_, ?_⟩
        · show s.take ((s.takeWhile isBodyC).length + 1) =
            s.takeWhile isBodyC ++ optCharList none ++ [')']
          rw [hpluck 1, hc]
          simp [optCharList]
        · show 1 ≤ (s.takeWhile isBodyC).length + 1
          omega
        · show (s.takeWhile isBodyC).length + 1 ≤ s.length
          omega
      · rw [if_neg hpar] at h
        by_cases hq : (isQuoteC c && (d == ')')) = true
        · rw [if_pos hq] at h
          injection h with h
          subst h
          have hd : d = ')' := by
            have h2 := (Bool.and_eq_true _ _).mp hq
            simpa using h2.2
          refine ⟨?_, ?_, ?_⟩
          · show s.take ((s.takeWhile isBodyC).length + 2) =
              s.takeWhile isBodyC ++ optCharList (some c) ++ [')']
            rw [hpluck 2, hd]
            simp [optCharList]
          · show 1 ≤ (s.takeWhile isBodyC).length + 2
            omega
          · show (s.takeWhile isBodyC).length + 2 ≤ s.length
            omega
        · rw [if_neg hq] at h
          simp at h

theorem matchTail_spec (s : List Char) :
    ∀ m : UrlMatch, matchTail s = some m →
      s.take m.consumed =
        optCharList m.openQ ++ m.body ++ optCharList m.closeQ ++ [')'] ∧
      1 ≤ m.consumed ∧ m.consumed ≤ s.length := by
  intro m h
  cases s with
  | nil => simp [matchTail] at h
  | cons c t =>
    simp only [matchTail] at h
    by_cases hq : isQuoteC c = true
    · rw [if_pos hq] at h
      cases hmc : matchCore t with
      | none => rw [hmc] at h; simp at h
      | some rck =>
        rw [hmc] at h
        simp only [Option.map] at h
        injection h with h
        subst h
        obtain ⟨htake, h1, h2⟩ := matchCore_spec t rck hmc
        refine ⟨?_, ?_, ?_⟩
        · show (c :: t).take (rck.2.2 + 1) =
            optCharList (some c) ++ rck.1 ++ optCharList rck.2.1 ++ [')']
          rw [show rck.2.2 + 1 = (rck.2.2).succ from rfl, List.take_succ_cons, htake]
          simp [optCharList]
        · show 1 ≤ rck.2.2 + 1
          omega
        · show rck.2.2 + 1 ≤ (c :: t).length
          simp
          omega
    · rw [if_neg hq] at h
      cases hmc : matchCore (c :: t) with
      | none => rw [hmc] at h; simp at h
      | some rck =>
        rw [hmc] at h
        simp only [Option.map] at h
        injection h with h
        subst h
        obtain ⟨htake, h1, h2⟩ := matchCore_spec (c :: t) rck hmc
        exact ⟨by simpa [optCharList] using htake, h1, h2⟩

/-- The scan partitions the stylesheet: segment texts concatenate back
to the input. -/
theorem scanSegs_partition :
    ∀ (fuel : Nat) (s : List Char), s.length ≤ fuel →
      ((scanSegs fuel s).map segText).flatten = s := by
  intro fuel
  induction fuel with
  | zero =>
    intro s h
    have hs : s = [] := List.length_eq_zero.mp (Nat.le_zero.mp h)
    subst hs
    rfl
  | succ fuel ih =>
    intro s h
    cases s with
    | nil => rfl
    | cons c t =>
      simp only [scanSegs]
      by_cases hurl : (c :: t).take 4 = urlOpen
      · rw [if_pos hurl]
        cases hm : matchTail ((c :: t).drop 4) with
        | none =>
          simp only [List.map_cons, List.flatten_cons, segText]
          rw [ih t (by simpa using h)]
          rfl
        | some m =>
          obtain ⟨htake, h1, hle⟩ := matchTail_spec _ _ hm
          simp only [List.map_cons, List.flatten_cons, segText]
          have hlen4 : 4 ≤ (c :: t).length := by
            have h4 := congrArg List.length hurl
            rw [List.length_take] at h4
            have hu : urlOpen.length = 4 := rfl
            omega
          have hdroplen : ((c :: t).drop 4).length = (c :: t).length - 4 :=
            List.length_drop 4 (c :: t)
          rw [ih ((c :: t).drop (4 + m.consumed)) ?hfuel]
          · have hdd : ((c :: t).drop 4).drop m.consumed = (c :: t).drop (4 + m.consumed) := by
              rw [List.drop_drop]
            conv_rhs => rw [← List.take_append_drop 4 (c :: t),
              ← List.take_append_drop m.consumed ((c :: t).drop 4)]
            rw [hurl, htake, hdd]
            simp [List.append_assoc]
          · case hfuel =>
              have hdl : ((c :: t).drop (4 + m.consumed)).length =
                  (c :: t).length - (4 + m.consumed) := List.length_drop _ _
              have hy : (c :: t).length = t.length + 1 := rfl
              simp at h
              omega
      · rw [if_neg hurl]
        simp only [List.map_cons, List.flatten_cons, segText]
        rw [ih t (by simpa using h)]
        rfl

/-! ### Claims C5 and C6 -/

/-- A single-quote string, for concrete stylesheet texts. -/
def sq : String := String.singleton quoteChar

/-- C5: for the stylesheet text `background: url('img/a.png')` owned by
`main.css`, whose package resource map maps the resolved path
`img/a.png` to the handle `handle:abc`, `replacePaths` returns the text
with `handle:abc` in place of `img/a.png` and the surrounding syntax —
the `url(` prefix, both quote characters and the closing parenthesis —
unchanged. -/
theorem c5_stylesheet_rewrite :
    replacePaths "main.css"
      [("main.css", Resource.text ("background: url(" ++ sq ++ "img/a.png" ++ sq ++ ")")),
       ("img/a.png", Resource.blobUrl "handle:abc")] =
    some ("background: url(" ++ sq ++ "handle:abc" ++ sq ++ ")") := by
  decide

/-- The argument the replacement callback hands to the URL constructor
for a reference body (an absent group reaches it as the string
`"undefined"`). -/
def refArg (b : List Char) : String :=
  if b.isEmpty then "undefined" else String.mk b

/-- The miss condition of the source for one reference: resolution
throws (modelled as `urlResolve` returning `none`) or the resolved path
has no entry in the package's resource map. -/
def refMisses (dep : String) (files : List (String × Resource)) (b : List Char) : Prop :=
  urlResolve (refArg b) dep = none ∨
    ∃ p, urlResolve (refArg b) dep = some p ∧ alookup files p = none

/-- C6: the rewrite of a stylesheet decomposes over the scanned
reference segments — the segments concatenate back to the input
byte-for-byte, the output is exactly the per-segment rendering (so a
broken reference never aborts the rest: `replacePaths` is total and
every other segment is still processed) — and every `url(...)`
reference whose resolution throws or whose resolved path is absent from
the resource map renders byte-identical to its input text. -/
theorem c6_unresolved_reference_is_noop (dep : String)
    (files : List (String × Resource)) (css : String) :
    ((scanSegs css.data.length css.data).map segText).flatten = css.data ∧
    (stringReplaceUrls (cssMatchReplace dep files) css).data =
      ((scanSegs css.data.length css.data).map
        (renderSeg (cssMatchReplace dep files))).flatten ∧
    (∀ o b cq, CssSeg.ref o b cq ∈ scanSegs css.data.length css.data →
      refMisses dep files b →
      renderSeg (cssMatchReplace dep files) (CssSeg.ref o b cq) =
        segText (CssSeg.ref o b cq)) := by
  refine ⟨scanSegs_partition css.data.length css.data (le_refl _), rfl, ?_⟩
  intro o b cq _ hmiss
  have harg : (if b.isEmpty then (none : Option String)
      else some (String.mk b)).getD "undefined" = refArg b := by
    by_cases hb : b.isEmpty
    · simp [hb, refArg]
    · simp [hb, refArg]
  have hbody : (if b.isEmpty then (none : Option String)
      else some (String.mk b)).getD "" = String.mk b := by
    by_cases hb : b.isEmpty
    · have hbe : b = [] := by simpa using hb
      simp [hb, hbe]
    · simp [hb]
  show (cssMatchReplace dep files (String.mk (urlOpen ++ optCharList o))
      (if b.isEmpty then none else some (String.mk b))
      (String.mk (optCharList cq ++ [')']))).data = segText (CssSeg.ref o b cq)
  unfold cssMatchReplace
  rw [harg]
  have hmdata : ((String.mk (urlOpen ++ optCharList o)) ++ String.mk b ++
      (String.mk (optCharList cq ++ [')']))).data = segText (CssSeg.ref o b cq) := by
    show (urlOpen ++ optCharList o) ++ b ++ (optCharList cq ++ [')']) =
      segText (CssSeg.ref o b cq)
    simp [segText, List.append_assoc]
  rcases hmiss with hmiss | ⟨p, hres, hlook⟩
  · rw [hmiss]
    simp only [hbody]
    exact hmdata
  · rw [hres]
    simp only [hlook, hbody]
    exact hmdata

/-- C6 witness: the theorem applied to a stylesheet whose single
reference resolves to a path absent from an empty resource map. -/
theorem c6_unresolved_reference_witness :
    renderSeg (cssMatchReplace "main.css" [])
        (CssSeg.ref none ("x.png").data none) =
      segText (CssSeg.ref none ("x.png").data none) :=
  (c6_unresolved_reference_is_noop "main.css" [] "url(x.png)").2.2
    none ("x.png").data none (by decide)
    (Or.inr ⟨"x.png", by decide, by decide⟩)

/-! ### The virtual asset store and the css/js dependency processing

`processFiles` materializes content-folder entries and per-package
entries; `processCssDependencies` rewrites each stylesheet, creates a
blob URL for the rewritten text in the per-tier `fileMap`, and writes
the rewritten *string* back into `packageFiles` (the source comment
says the blob URL replaces the string content, but the code assigns
`css`, the text — embedded faithfully below).  JavaScript reads of a
missing object property that immediately get dereferenced are embedded
as `missingKey` errors (the TypeError that would reject the chain);
reads whose `undefined` value is merely stored are embedded with
`undefinedUrl`. -/

/-- One `{ dependency, fileMap }` entry of the processed css/js
dependency arrays. -/
structure DepFileMap where
  dependency : String
  fileMap : List (String × String)
  deriving DecidableEq, Repr

/-- The string an `undefined` value turns into when used as a URL. -/
def undefinedUrl : String := "undefined"

/-- Two-level map read `pf[pp][path]`. -/
def alookup2 (pf : List (String × List (String × Resource)))
    (pp : String) (path : String) : Option Resource :=
  (alookup pf pp).bind (fun m => alookup m path)

/-- `URL.createObjectURL(new Blob([...]))` for a named file: object-URL
generation is an external opaque handle factory, embedded as a
deterministic tagged name. -/
def createBlobUrl (fileName : String) : String := "blob:" ++ fileName

/-- The body of `processCssDependencies`' inner `map`: rewrite one
stylesheet, record its blob URL in the tier's `fileMap` and write the
rewritten text back into the package's `packageFiles` entry (the
source's `this.packageFiles[dependency][cssDep] = css`). -/
def processCssFile (pp : String)
    (st : List (String × String) × List (String × List (String × Resource)))
    (cssDep : String) :
    Except Err (List (String × String) × List (String × List (String × Resource))) :=
  match alookup st.2 pp with
  | none => .error (.missingKey pp)
  | some files =>
    match replacePaths cssDep files with
    | none => .error (.missingKey cssDep)
    | some css =>
      .ok (aset st.1 cssDep (createBlobUrl (pp ++ cssDep)),
           aset st.2 pp (aset files cssDep (Resource.text css)))

/-- The embedding of `processCssDependencies`: walk the sorted order,
build one `{ dependency, fileMap }` per package and thread the mutated
`packageFiles` through. -/
def processCssDependencies (sorted : List String)
    (cssDependencies : List (String × List String))
    (pf : List (String × List (String × Resource))) :
    Except Err (List DepFileMap × List (String × List (String × Resource))) :=
  sorted.foldlM
    (fun st pp =>
      match alookup cssDependencies pp with
      | none => .error (.missingKey pp)
      | some cssList =>
        (cssList.foldlM (processCssFile pp) (([], st.2) :
            List (String × String) × List (String × List (String × Resource)))).map
          (fun r => (st.1 ++ [⟨pp, r.1⟩], r.2)))
    ([], pf)

/-- The embedding of `processJsDependencies`: per sorted package, map
each declared script path to its stored resource string. -/
def processJsDependencies (sorted : List String)
    (jsDependencies : List (String × List String))
    (pf : List (String × List (String × Resource))) :
    Except Err (List DepFileMap) :=
  sorted.foldlM
    (fun acc pp =>
      match alookup jsDependencies pp with
      | none => .error (.missingKey pp)
      | some jsList =>
        match alookup pf pp with
        | none => .error (.missingKey pp)
        | some files =>
          .ok (acc ++ [(⟨pp, jsList.foldl
            (fun fm jsDep =>
              aset fm jsDep ((alookup files jsDep).elim undefinedUrl resourceStr))
            []⟩ : DepFileMap)]))
    []

/-- Remove the first occurrence of a pattern from a character list,
the embedding of `name.replace(pattern, '')` with a string pattern. -/
def removeFirstSub : List Char → List Char → List Char
  | [], _ => []
  | c :: t, pat =>
    if (c :: t).take pat.length = pat then (c :: t).drop pat.length
    else c :: removeFirstSub t pat

/-- Does the pattern occur anywhere in the list (`zip.file(regex)` with
an escaped literal pattern)? -/
def containsSub : List Char → List Char → Bool
  | [], pat => pat.isEmpty
  | c :: t, pat =>
    if (c :: t).take pat.length = pat then true else containsSub t pat

/-- The mutable state `processFiles` fills. -/
structure ProcessSt where
  contentJson : String
  contentPaths : List (String × String)
  loadedJs : List (String × Bool)
  loadedCss : List (String × Bool)
  packageFiles : List (String × List (String × Resource))
  deriving DecidableEq, Repr

/-- The embedding of `processContent`: the designated `content.json`
entry is kept as raw text, every other content entry becomes a blob URL
keyed by its `content/`-stripped path. -/
def processContent (st : ProcessSt) (name : String) (content : String) : ProcessSt :=
  let fileName := String.mk (removeFirstSub name.data ("content/").data)
  if fileName = "content.json" then { st with contentJson := content }
  else { st with contentPaths := aset st.contentPaths fileName (createBlobUrl fileName) }

/-- The embedding of `processPackageFile`: classify the entry by the
package's declared script/style lists; scripts are flagged loaded and
stored as blob resources, styles are flagged loaded and stored as raw
text for later rewriting, everything else becomes a blob resource. -/
def processPackageFile (jsDependencies cssDependencies : List (String × List String))
    (st : ProcessSt) (pp : String) (name : String) (content : String) : ProcessSt :=
  let fileName := String.mk (removeFirstSub name.data pp.data)
  let jsFile := ((alookup jsDependencies pp).getD []).contains fileName
  let cssFile := ((alookup cssDependencies pp).getD []).contains fileName
  if jsFile then
    { st with
      loadedJs := aset st.loadedJs name true
      packageFiles := aset st.packageFiles pp
        (aset ((alookup st.packageFiles pp).getD []) fileName
          (Resource.blobUrl (createBlobUrl fileName))) }
  else if cssFile then
    { st with
      loadedCss := aset st.loadedCss name true
      packageFiles := aset st.packageFiles pp
        (aset ((alookup st.packageFiles pp).getD []) fileName (Resource.text content)) }
  else
    { st with
      packageFiles := aset st.packageFiles pp
        (aset ((alookup st.packageFiles pp).getD []) fileName
          (Resource.blobUrl (createBlobUrl fileName))) }

/-- The archive handed to `init`: the parsed descriptor entries read by
the builder and the raw entries read by `processFiles`. -/
structure Archive where
  descriptors : Zip
  files : List (String × String)

/-- The embedding of `processFiles`: materialize every entry matching
`content/`, then for every known package every entry containing its
path. -/
def processFilesModel (ar : Archive) (sd : SetDepsSt) : ProcessSt :=
  let st0 : ProcessSt := ⟨"", [], [], [], sd.packageFiles⟩
  let st1 := ar.files.foldl
    (fun st f =>
      if containsSub f.1.data ("content/").data then processContent st f.1 f.2 else st)
    st0
  (sd.packageFiles.map Prod.fst).foldl
    (fun st pp =>
      ar.files.foldl
        (fun st f =>
          if containsSub f.1.data pp.data then
            processPackageFile sd.jsDependencies sd.cssDependencies st pp f.1 f.2
          else st)
        st)
    st1

/-- The outcome `init` leaves when no stage rejects. -/
structure InitOutcome where
  sortedDependencies : List String
  cssMaps : List DepFileMap
  jsMaps : List DepFileMap
  packageFiles : List (String × List (String × Resource))
  contentPaths : List (String × String)
  contentJson : String
  deriving DecidableEq, Repr

/-- The embedding of `init`'s promise chain: recurse the dependencies,
sort them, materialize files, process the css and js dependency lists.
Any rejection skips every following stage (`.then` chaining). -/
def initModel (ar : Archive) (fuel : Nat) : Except Err InitOutcome :=
  (recurseR fuel ar.descriptors (.file "h5p.json" [] "") []).bind
    (fun records =>
      (setDependencies records).bind
        (fun sd =>
          let st := processFilesModel ar sd
          (processCssDependencies sd.sortedDependencies sd.cssDependencies
              st.packageFiles).bind
            (fun cssr =>
              (processJsDependencies sd.sortedDependencies sd.jsDependencies cssr.2).map
                (fun jsMaps =>
                  { sortedDependencies := sd.sortedDependencies
                    cssMaps := cssr.1
                    jsMaps := jsMaps
                    packageFiles := cssr.2
                    contentPaths := st.contentPaths
                    contentJson := st.contentJson }))))

/-- One observable action of the ordered loader. -/
inductive LoadEv
  | css (url : String)
  | js (url : String)
  | h5pInit
  deriving DecidableEq, Repr

/-- The load actions `initH5P` performs for a successful `init`, in the
canonical sequential order (style tiers, then script tiers, then
`H5P.init`); a rejected `init` performs none. -/
def loadEventsOf : Except Err InitOutcome → List LoadEv
  | .error _ => []
  | .ok o =>
    (o.cssMaps.map (fun m => m.fileMap.map (fun kv => LoadEv.css kv.2))).flatten ++
    (o.jsMaps.map (fun m => m.fileMap.map (fun kv => LoadEv.js kv.2))).flatten ++
    [LoadEv.h5pInit]

/-! ### Claim C2 -/

/-- C2, evaluated at the failing input: after `processCssDependencies`
runs over a package declaring one stylesheet, the tier's `fileMap`
holds the blob URL, but the package's resource-map entry
`packageFiles[packagePath][cssPath]` holds the rewritten raw *text*
(`Resource.text`), not a blob URL handle — the code assigns `css` where
its own comment says it replaces the string content with the new blob
URL, so the downstream `getLibraryFilePath` consumer reads raw text. -/
theorem c2_css_entry_remains_raw_text :
    processCssDependencies ["P-1.0/"] [("P-1.0/", ["main.css"])]
        [("P-1.0/", [("main.css", Resource.text "color: red")])] =
      Except.ok
        ([{ dependency := "P-1.0/", fileMap := [("main.css", "blob:P-1.0/main.css")] }],
         [("P-1.0/", [("main.css", Resource.text "color: red")])]) ∧
    (∀ u, alookup2 [("P-1.0/", [("main.css", Resource.text "color: red")])]
        "P-1.0/" "main.css" ≠ some (Resource.blobUrl u)) := by
  refine ⟨by decide, ?_⟩
  intro u hc
  have h2 : alookup2 [("P-1.0/", [("main.css", Resource.text "color: red")])]
      "P-1.0/" "main.css" = some (Resource.text "color: red") := by decide
  rw [h2] at hc
  injection hc with hc
  cases hc

/-! ### Claim C8 -/

/-- C8: for an archive whose root descriptor declares a dependency
whose metadata file `A-1.0/library.json` is absent, `init`'s chain
rejects with the missing-entry error (the specification's
`EntryNotFoundError`) and performs no style or script tier load and no
`H5P.init` — `loadDependencies` is never reached. -/
theorem c8_missing_entry_aborts_load :
    initModel ⟨[("h5p.json", ⟨[⟨"A", 1, 0⟩], [], []⟩)], []⟩ 10 =
      Except.error (Err.entryNotFound "A-1.0/library.json") ∧
    loadEventsOf (initModel ⟨[("h5p.json", ⟨[⟨"A", 1, 0⟩], [], []⟩)], []⟩ 10) = [] := by
  exact ⟨by decide, by decide⟩

/-! ### The ordered loader (claim C7)

`loadDependencies` chains one promise per tier with `reduce`/`then` and
starts all file loads of a tier together with `Promise.all`;
`initH5P` chains the style pass, the script pass and `H5P.init()`.
The promise combinators are embedded as a tree, and their temporal
behaviour as a trace semantics: a single load emits its start and
finish events, `then`-sequencing concatenates traces (the left side
settles before the right side starts), and `Promise.all` admits every
interleaving of its children's traces.  Quantifying over all traces
captures all schedules the hosting event loop may choose. -/

/-- The promise-composition shapes `initH5P` builds. -/
inductive PTree
  | done
  | load (url : String) (css : Bool)
  | initEv
  | seqP (a b : PTree)
  | parP (ts : List PTree)

/-- Observable events: a file load starting, a file load settling, and
the final `H5P.init()` call. -/
inductive Ev
  | start (url : String) (css : Bool)
  | finish (url : String) (css : Bool)
  | h5pStart
  deriving DecidableEq, Repr

/-- An interleaving of two event sequences. -/
inductive Interleave : List Ev → List Ev → List Ev → Prop
  | nil : Interleave [] [] []
  | consL {a : Ev} {l r m : List Ev} : Interleave l r m → Interleave (a :: l) r (a :: m)
  | consR {a : Ev} {l r m : List Ev} : Interleave l r m → Interleave l (a :: r) (a :: m)

/-- The traces a promise tree may produce. -/
inductive HasTrace : PTree → List Ev → Prop
  | done : HasTrace .done []
  | load {u : String} {c : Bool} : HasTrace (.load u c) [.start u c, .finish u c]
  | initEv : HasTrace .initEv [.h5pStart]
  | seqP {a b : PTree} {ta tb : List Ev} :
      HasTrace a ta → HasTrace b tb → HasTrace (.seqP a b) (ta ++ tb)
  | parNil : HasTrace (.parP []) []
  | parCons {t : PTree} {ts : List PTree} {tt tr m : List Ev} :
      HasTrace t tt → HasTrace (.parP ts) tr → Interleave tt tr m →
      HasTrace (.parP (t :: ts)) m

/-- One tier: all files of one package started together
(`Promise.all(Object.values(depMap.fileMap).map(scriptLoader))`). -/
def tierTree (d : DepFileMap) (css : Bool) : PTree :=
  .parP ((d.fileMap.map Prod.snd).map (fun u => .load u css))

/-- The embedding of `loadDependencies`: the `reduce` chain awaiting
each tier before starting the next. -/
def loadDependenciesTree (deps : List DepFileMap) (css : Bool) : PTree :=
  deps.foldl (fun p d => .seqP p (tierTree d css)) .done

/-- The embedding of `initH5P`'s load sequence: styles, then scripts,
then `H5P.init()`. -/
def initH5PTree (cssDeps jsDeps : List DepFileMap) : PTree :=
  .seqP (loadDependenciesTree cssDeps true)
    (.seqP (loadDependenciesTree jsDeps false) .initEv)

/-- The start and finish events of one tier's files. -/
def tierEvents (d : DepFileMap) (css : Bool) : List Ev :=
  ((d.fileMap.map Prod.snd).map (fun u => [Ev.start u css, Ev.finish u css])).flatten

theorem interleave_perm {l r m : List Ev} (h : Interleave l r m) : m.Perm (l ++ r) := by
  induction h with
  | nil => exact List.Perm.refl _
  | consL _ ih => exact ih.cons _
  | consR _ ih => exact (ih.cons _).trans List.perm_middle.symm

theorem parP_loads_perm (css : Bool) :
    ∀ (urls : List String) (tr : List Ev),
      HasTrace (.parP (urls.map (fun u => .load u css))) tr →
      tr.Perm ((urls.map (fun u => [Ev.start u css, Ev.finish u css])).flatten) := by
  intro urls
  induction urls with
  | nil =>
    intro tr h
    cases h
    simp
  | cons u rest ih =>
    intro tr h
    cases h with
    | parCons ht hts hint =>
      cases ht
      have h1 := interleave_perm hint
      have h2 := ih _ hts
      simp only [List.map_cons, List.flatten_cons]
      exact h1.trans (List.Perm.append_left _ h2)

theorem loadTree_traces (css : Bool) :
    ∀ (deps : List DepFileMap) (tr : List Ev),
      HasTrace (loadDependenciesTree deps css) tr →
      ∃ parts : List (List Ev), tr = parts.flatten ∧
        List.Forall₂ (fun p d => List.Perm p (tierEvents d css)) parts deps := by
  intro deps
  induction deps using List.reverseRecOn with
  | nil =>
    intro tr h
    cases h
    exact ⟨[], rfl, List.Forall₂.nil⟩
  | append_singleton ds d ih =>
    intro tr h
    have h2 : HasTrace (.seqP (loadDependenciesTree ds css) (tierTree d css)) tr := by
      simpa [loadDependenciesTree, List.foldl_append] using h
    cases h2 with
    | @seqP a b ta tb ha hb =>
      obtain ⟨parts, rfl, hfa⟩ := ih _ ha
      have hperm := parP_loads_perm css (d.fileMap.map Prod.snd) _ hb
      refine ⟨parts ++ [tb], by simp, ?_⟩
      exact List.rel_append hfa (List.Forall₂.cons hperm List.Forall₂.nil)

/-- C7: every trace the loader can produce decomposes as the style
tiers in order, then the script tiers in order, then `H5P.init`; each
tier's slice is a permutation (an interleaving) of exactly that tier's
start/finish events, so every file load of tier `i` settles before any
load of tier `i+1` starts, files within one tier run concurrently, and
all style tiers complete before any script tier begins. -/
theorem c7_loader_tier_order (cssDeps jsDeps : List DepFileMap) (tr : List Ev)
    (h : HasTrace (initH5PTree cssDeps jsDeps) tr) :
    ∃ cs js : List (List Ev),
      tr = cs.flatten ++ js.flatten ++ [Ev.h5pStart] ∧
      List.Forall₂ (fun p d => List.Perm p (tierEvents d true)) cs cssDeps ∧
      List.Forall₂ (fun p d => List.Perm p (tierEvents d false)) js jsDeps := by
  have h2 : HasTrace (.seqP (loadDependenciesTree cssDeps true)
      (.seqP (loadDependenciesTree jsDeps false) .initEv)) tr := h
  cases h2 with
  | seqP ha hrest =>
    cases hrest with
    | seqP hb hinit =>
      cases hinit
      obtain ⟨cs, rfl, hfa⟩ := loadTree_traces true cssDeps _ ha
      obtain ⟨js, rfl, hfb⟩ := loadTree_traces false jsDeps _ hb
      exact ⟨cs, js, by simp, hfa, hfb⟩

/-- C7 witness: the theorem applied to a one-tier style pass and a
one-tier script pass with an explicitly constructed trace. -/
theorem c7_loader_tier_order_witness :
    ∃ cs js : List (List Ev),
      ([Ev.start "u1" true, Ev.finish "u1" true, Ev.start "u2" false,
        Ev.finish "u2" false, Ev.h5pStart] : List Ev) =
        cs.flatten ++ js.flatten ++ [Ev.h5pStart] ∧
      List.Forall₂ (fun p d => List.Perm p (tierEvents d true)) cs
        [⟨"P-1.0/", [("a.css", "u1")]⟩] ∧
      List.Forall₂ (fun p d => List.Perm p (tierEvents d false)) js
        [⟨"Q-1.0/", [("b.js", "u2")]⟩] :=
  c7_loader_tier_order [⟨"P-1.0/", [("a.css", "u1")]⟩] [⟨"Q-1.0/", [("b.js", "u2")]⟩] _
    (HasTrace.seqP
      (HasTrace.seqP HasTrace.done
        (HasTrace.parCons HasTrace.load HasTrace.parNil
          (Interleave.consL (Interleave.consL Interleave.nil))))
      (HasTrace.seqP
        (HasTrace.seqP HasTrace.done
          (HasTrace.parCons HasTrace.load HasTrace.parNil
            (Interleave.consL (Interleave.consL Interleave.nil))))
        HasTrace.initEv))

/-! ### The xAPI event dispatcher and the debounce policy (claim C9)

`shimH5P` subscribes to the runtime's event dispatcher: statements with
a deny-listed verb are never forwarded, statements with a debounced
verb go through a per-verb lodash `debounce(fn, 5000, { leading: true,
maxWait: 30000 })` handler (trailing defaults to true), everything else
is sent directly.  The external `XAPIVerbMap` vocabulary renames verbs
to URLs injectively and does not affect routing; verbs are embedded by
their names.  Lodash's debounce is external; its algorithm
(`shouldInvoke` / leading edge / trailing edge / `remainingWait`, with
`maxing` set) is embedded below over natural-number milliseconds with
monotone time (the negative-clock-drift branch of `shouldInvoke` cannot
fire), and the timer is embedded by its absolute expiry instant.  The
simulation processes the call list and then runs pending timers to
quiescence; the fuel only bounds its steps. -/

/-- An xAPI statement: its verb and an opaque payload. -/
structure Statement where
  verbId : String
  payload : String
  deriving DecidableEq, Repr

/-- Verbs that are never reported. -/
def doNotLogVerbs : List String :=
  ["downloaded", "copied", "accessed-reuse", "accessed-embed", "accessed-copyright"]

/-- Verbs whose reporting is debounced. -/
def debounceVerbs : List String := ["answered", "interacted"]

/-- Time in seconds to debounce by. -/
def debounceDelay : Nat := 5

/-- Max time in seconds that debounce should delay by. -/
def maxDelay : Nat := 30

/-- The wait in milliseconds handed to `debounce`. -/
def debWait : Nat := debounceDelay * 1000

/-- The `maxWait` in milliseconds handed to `debounce`. -/
def debMaxWait : Nat := maxDelay * 1000

/-- How the dispatcher routes one statement's verb. -/
inductive Route
  | dropped
  | debounced
  | direct
  deriving DecidableEq, Repr

/-- The routing of the `externalDispatcher.on('xAPI', ...)` listener:
deny-list first, then the per-verb debounced handlers, then a direct
send. -/
def dispatchRoute (verbId : String) : Route :=
  if doNotLogVerbs.contains verbId then .dropped
  else if debounceVerbs.contains verbId then .debounced
  else .direct

/-- The state of one lodash-debounced handler.  The timer is stored as
its absolute expiry time; `invocations` records each `sendStatement`
call with its time. -/
structure DebSt where
  lastCallTime : Option Nat
  lastInvokeTime : Nat
  timerId : Option Nat
  lastArgs : Option Statement
  invocations : List (Nat × Statement)
  deriving DecidableEq, Repr

/-- The initial handler state (lodash sets `lastInvokeTime = 0`). -/
def debInit : DebSt := ⟨none, 0, none, none, []⟩

/-- Lodash `shouldInvoke`: first call, wait elapsed since the last
call, or (`maxing`) `maxWait` elapsed since the last invocation. -/
def shouldInvoke (st : DebSt) (time : Nat) : Bool :=
  match st.lastCallTime with
  | none => true
  | some lc =>
    decide (debWait ≤ time - lc) || decide (debMaxWait ≤ time - st.lastInvokeTime)

/-- Lodash `invokeFunc`: consume `lastArgs`, record the invocation and
update `lastInvokeTime`. -/
def invokeFunc (st : DebSt) (time : Nat) : DebSt :=
  match st.lastArgs with
  | some a =>
    { st with lastArgs := none, lastInvokeTime := time
              invocations := st.invocations ++ [(time, a)] }
  | none => { st with lastInvokeTime := time }

/-- Lodash's `debounced` function on one call. -/
def debCall (st : DebSt) (time : Nat) (a : Statement) : DebSt :=
  let isInvoking := shouldInvoke st time
  let st2 := { st with lastArgs := some a, lastCallTime := some time }
  if isInvoking then
    match st2.timerId with
    | none => invokeFunc { st2 with lastInvokeTime := time, timerId := some (time + debWait) } time
    | some _ => invokeFunc { st2 with timerId := some (time + debWait) } time
  else
    match st2.timerId with
    | none => { st2 with timerId := some (time + debWait) }
    | some _ => st2

/-- Lodash `remainingWait` with `maxing` set. -/
def remainingWait (st : DebSt) (time : Nat) : Nat :=
  min (debWait - (time - st.lastCallTime.getD 0))
    (debMaxWait - (time - st.lastInvokeTime))

/-- Lodash `timerExpired`: take the trailing edge, or re-arm the timer
for the remaining wait. -/
def debTimer (st : DebSt) (time : Nat) : DebSt :=
  if shouldInvoke st time then
    match st.lastArgs with
    | some _ => invokeFunc { st with timerId := none } time
    | none => { st with timerId := none, lastArgs := none }
  else
    { st with timerId := some (time + remainingWait st time) }

/-- Discrete-event run of one debounced handler: process the calls in
time order, firing the pending timer first whenever it expires no later
than the next call, then run remaining timers to quiescence. -/
def simulate : Nat → DebSt → List (Nat × Statement) → DebSt
  | 0, st, _ => st
  | fuel + 1, st, [] =>
    match st.timerId with
    | none => st
    | some texp => simulate fuel (debTimer st texp) []
  | fuel + 1, st, (ct, a) :: rest =>
    match st.timerId with
    | some texp =>
      if texp ≤ ct then simulate fuel (debTimer st texp) ((ct, a) :: rest)
      else simulate fuel (debCall st ct a) rest
    | none => simulate fuel (debCall st ct a) rest

/-- The time of the last of the remaining calls (or the given default). -/
def lastTimeOf (lc : Nat) (rest : List (Nat × Statement)) : Nat :=
  match rest.getLast? with
  | none => lc
  | some c => c.1

/-- The pending `lastArgs` after the remaining calls (or the given
default). -/
def lastArgOf (la : Option Statement) (rest : List (Nat × Statement)) : Option Statement :=
  match rest.getLast? with
  | none => la
  | some c => some c.2

theorem lastTimeOf_cons (lc : Nat) (c : Nat × Statement) (rest : List (Nat × Statement)) :
    lastTimeOf lc (c :: rest) = lastTimeOf c.1 rest := by
  cases rest with
  | nil => simp [lastTimeOf]
  | cons d r =>
    cases hg : (d :: r).getLast? with
    | none => exact absurd (List.getLast?_eq_none_iff.mp hg) (by simp)
    | some x => simp [lastTimeOf, List.getLast?_cons_cons, hg]

theorem lastArgOf_cons (la : Option Statement) (c : Nat × Statement)
    (rest : List (Nat × Statement)) :
    lastArgOf la (c :: rest) = lastArgOf (some c.2) rest := by
  cases rest with
  | nil => simp [lastArgOf]
  | cons d r =>
    cases hg : (d :: r).getLast? with
    | none => exact absurd (List.getLast?_eq_none_iff.mp hg) (by simp)
    | some x => simp [lastArgOf, List.getLast?_cons_cons, hg]

/-- During the window, every call after the leading one only refreshes
`lastCallTime`/`lastArgs`: the timer stays armed at the leading edge's
expiry and nothing is invoked. -/
theorem simulate_calls_phase (t1 : Nat) (inv : List (Nat × Statement)) :
    ∀ (rest : List (Nat × Statement)) (fuel : Nat) (lc : Nat) (la : Option Statement),
      t1 ≤ lc →
      (∀ c ∈ rest, t1 ≤ c.1 ∧ c.1 < t1 + debWait) →
      simulate (fuel + rest.length) ⟨some lc, t1, some (t1 + debWait), la, inv⟩ rest =
        simulate fuel
          ⟨some (lastTimeOf lc rest), t1, some (t1 + debWait), lastArgOf la rest, inv⟩ [] := by
  intro rest
  induction rest with
  | nil =>
    intro fuel lc la _ _
    simp [lastTimeOf, lastArgOf]
  | cons c rest2 ih =>
    intro fuel lc la hlc hwin
    obtain ⟨hc1, hc2⟩ := hwin c (by simp)
    have hstep : simulate (fuel + (c :: rest2).length)
        ⟨some lc, t1, some (t1 + debWait), la, inv⟩ (c :: rest2) =
        simulate (fuel + rest2.length)
          ⟨some c.1, t1, some (t1 + debWait), some c.2, inv⟩ rest2 := by
      have hlen : fuel + (c :: rest2).length = (fuel + rest2.length) + 1 := by
        simp
        omega
      rw [hlen]
      have htimer : ¬(t1 + debWait ≤ c.1) := by omega
      have hsi : shouldInvoke ⟨some lc, t1, some (t1 + debWait), la, inv⟩ c.1 = false := by
        have hw : debWait = 5000 := rfl
        have hmw : debMaxWait = 30000 := rfl
        simp only [shouldInvoke, Bool.or_eq_false_iff, decide_eq_false_iff_not]
        constructor
        · omega
        · omega
      cases c with
      | mk ct a =>
        simp only [simulate]
        rw [if_neg htimer]
        simp [debCall, hsi]
    rw [hstep, ih _ _ _ hc1 (fun d hd => hwin d (by simp [hd])), lastTimeOf_cons,
      lastArgOf_cons]

/-- After the last call of the window, the armed timer fires at most
twice: a re-arm to the trailing edge when needed, then the trailing
invocation; the handler then goes quiescent. -/
theorem simulate_trailing (t1 tl : Nat) (a : Statement) (inv : List (Nat × Statement))
    (h1 : t1 ≤ tl) (h2 : tl < t1 + debWait) :
    ∀ fuel, 3 ≤ fuel →
      (simulate fuel ⟨some tl, t1, some (t1 + debWait), some a, inv⟩ []).invocations =
        inv ++ [(tl + debWait, a)] := by
  intro fuel hf
  obtain ⟨k, rfl⟩ : ∃ k, fuel = k + 3 := ⟨fuel - 3, by omega⟩
  by_cases htl : tl ≤ t1
  · have htleq : tl = t1 := by omega
    rw [htleq]
    have hsi : shouldInvoke ⟨some t1, t1, some (t1 + debWait), some a, inv⟩ (t1 + debWait)
        = true := by
      simp only [shouldInvoke, Bool.or_eq_true, decide_eq_true_eq]
      left
      omega
    have hrw : simulate (k + 3) ⟨some t1, t1, some (t1 + debWait), some a, inv⟩ [] =
        simulate (k + 2) ⟨some t1, t1 + debWait, none, none,
          inv ++ [(t1 + debWait, a)]⟩ [] := by
      simp only [simulate]
      simp [debTimer, hsi, invokeFunc]
    rw [hrw]
    have hdone : ∀ m, simulate m ⟨some t1, t1 + debWait, none, none,
        inv ++ [(t1 + debWait, a)]⟩ [] = ⟨some t1, t1 + debWait, none, none,
        inv ++ [(t1 + debWait, a)]⟩ := by
      intro m
      cases m with
      | zero => rfl
      | succ m2 => simp [simulate]
    rw [hdone]
  · have htlt : t1 < tl := by omega
    have hsi : shouldInvoke ⟨some tl, t1, some (t1 + debWait), some a, inv⟩ (t1 + debWait)
        = false := by
      have hw : debWait = 5000 := rfl
      have hmw : debMaxWait = 30000 := rfl
      simp only [shouldInvoke, Bool.or_eq_false_iff, decide_eq_false_iff_not]
      constructor
      · omega
      · omega
    have hrmw : remainingWait ⟨some tl, t1, some (t1 + debWait), some a, inv⟩ (t1 + debWait)
        = tl - t1 := by
      have hw : debWait = 5000 := rfl
      have hmw : debMaxWait = 30000 := rfl
      simp only [remainingWait, Option.getD_some]
      omega
    have hstep1 : simulate (k + 3) ⟨some tl, t1, some (t1 + debWait), some a, inv⟩ [] =
        simulate (k + 2) ⟨some tl, t1, some (tl + debWait), some a, inv⟩ [] := by
      simp only [simulate]
      rw [debTimer, if_neg ?_]
      · rw [hrmw]
        have : t1 + debWait + (tl - t1) = tl + debWait := by omega
        rw [this]
      · rw [hsi]
        simp
    have hsi2 : shouldInvoke ⟨some tl, t1, some (tl + debWait), some a, inv⟩ (tl + debWait)
        = true := by
      simp only [shouldInvoke, Bool.or_eq_true, decide_eq_true_eq]
      left
      omega
    have hstep2 : simulate (k + 2) ⟨some tl, t1, some (tl + debWait), some a, inv⟩ [] =
        simulate (k + 1) ⟨some tl, tl + debWait, none, none,
          inv ++ [(tl + debWait, a)]⟩ [] := by
      simp only [simulate]
      simp [debTimer, hsi2, invokeFunc]
    rw [hstep1, hstep2]
    cases k with
    | zero => rfl
    | succ k2 => simp [simulate]

/-- C9: for every verb in the debounced set (e.g. `interacted`), the
dispatcher routes its statements through the per-verb debounced
handler, and given ten events with that verb inside one five-second
window — the first at `t1`, the other nine at times in
`[t1, t1 + 5000)` — the handler invokes `sendStatement` exactly twice:
once immediately at the first event (the leading edge, with the first
statement) and once at the trailing edge of the window (`5000` ms after
the last event, with the last statement) — never once per event. -/
theorem c9_debounced_verb_collapses (verb : String) (hverb : verb ∈ debounceVerbs)
    (t1 : Nat) (a1 : Statement) (rest : List (Nat × Statement))
    (hlen : rest.length = 9)
    (hwin : ∀ c ∈ rest, t1 ≤ c.1 ∧ c.1 < t1 + debWait) :
    dispatchRoute verb = Route.debounced ∧
    ∃ tl al, rest.getLast? = some (tl, al) ∧
      (simulate 16 debInit ((t1, a1) :: rest)).invocations =
        [(t1, a1), (tl + debWait, al)] := by
  constructor
  · have hv : verb = "answered" ∨ verb = "interacted" := by
      simpa [debounceVerbs] using hverb
    rcases hv with rfl | rfl
    · decide
    · decide
  · have hne : rest ≠ [] := by
      intro h
      rw [h] at hlen
      simp at hlen
    obtain ⟨c, hlast⟩ : ∃ c, rest.getLast? = some c := by
      cases hr : rest.getLast? with
      | none => exact absurd (List.getLast?_eq_none_iff.mp hr) hne
      | some c => exact ⟨c, rfl⟩
    obtain ⟨tl, al⟩ := c
    refine ⟨tl, al, hlast, ?_⟩
    have hmem : (tl, al) ∈ rest := List.mem_of_mem_getLast? hlast
    obtain ⟨htl1, htl2⟩ := hwin _ hmem
    have h1 : simulate 16 debInit ((t1, a1) :: rest) =
        simulate 15 ⟨some t1, t1, some (t1 + debWait), none, [(t1, a1)]⟩ rest := by
      simp [simulate, debInit, debCall, shouldInvoke, invokeFunc]
    rw [h1, show (15 : Nat) = 6 + rest.length from by omega]
    rw [simulate_calls_phase t1 [(t1, a1)] rest 6 t1 none (le_refl _) hwin]
    have hlt : lastTimeOf t1 rest = tl := by simp [lastTimeOf, hlast]
    have hla : lastArgOf none rest = some al := by simp [lastArgOf, hlast]
    rw [hlt, hla]
    exact simulate_trailing t1 tl al [(t1, a1)] htl1 htl2 6 (by omega)

/-- C9 witness: ten `interacted` events at millisecond times
`0, 100, ..., 900` collapse to a leading report at time `0` and a
trailing report at time `5900`. -/
theorem c9_debounced_verb_witness :
    dispatchRoute "interacted" = Route.debounced ∧
    ∃ tl al,
      ([(100, ⟨"interacted", "s2"⟩), (200, ⟨"interacted", "s3"⟩),
        (300, ⟨"interacted", "s4"⟩), (400, ⟨"interacted", "s5"⟩),
        (500, ⟨"interacted", "s6"⟩), (600, ⟨"interacted", "s7"⟩),
        (700, ⟨"interacted", "s8"⟩), (800, ⟨"interacted", "s9"⟩),
        (900, ⟨"interacted", "s10"⟩)] : List (Nat × Statement)).getLast? = some (tl, al) ∧
      (simulate 16 debInit ((0, ⟨"interacted", "s1"⟩) ::
        [(100, ⟨"interacted", "s2"⟩), (200, ⟨"interacted", "s3"⟩),
         (300, ⟨"interacted", "s4"⟩), (400, ⟨"interacted", "s5"⟩),
         (500, ⟨"interacted", "s6"⟩), (600, ⟨"interacted", "s7"⟩),
         (700, ⟨"interacted", "s8"⟩), (800, ⟨"interacted", "s9"⟩),
         (900, ⟨"interacted", "s10"⟩)])).invocations =
        [(0, ⟨"interacted", "s1"⟩), (tl + debWait, al)] :=
  c9_debounced_verb_collapses "interacted" (by decide) 0 ⟨"interacted", "s1"⟩
    [(100, ⟨"interacted", "s2"⟩), (200, ⟨"interacted", "s3"⟩),
     (300, ⟨"interacted", "s4"⟩), (400, ⟨"interacted", "s5"⟩),
     (500, ⟨"interacted", "s6"⟩), (600, ⟨"interacted", "s7"⟩),
     (700, ⟨"interacted", "s8"⟩), (800, ⟨"interacted", "s9"⟩),
     (900, ⟨"interacted", "s10"⟩)] (by decide) (by decide)

/-! ### The user-data shim (claim C10)

`H5P.setUserData` serializes its `data` argument with
`JSON.stringify`; a thrown serialization error invokes the supplied
`errorCallback` (when `isFunction` holds) and returns before touching
the store, otherwise the serialized string is written with lodash `set`
at `[subContentId, dataId]` and `stateUpdated` fires.  `JSON.stringify`
is external; it is embedded structurally over a JavaScript value tree:
a BigInt anywhere throws (the representable throwing case — a cyclic
object is not expressible as an inductive value), a top-level
`undefined` yields no string, `undefined` inside an array serializes as
`null`, and an `undefined` property is omitted. -/

/-- A double-quote string. -/
def dqStr : String := String.singleton dquoteChar

/-- A JavaScript value handed to `setUserData`. -/
inductive JSValue
  | null
  | undefined
  | bool (b : Bool)
  | num (n : Int)
  | str (s : String)
  | bigint (n : Int)
  | arr (xs : List JSValue)
  | obj (fields : List (String × JSValue))

/-- Minimal JSON string escaping (quotes and backslashes). -/
def jsonEscape (s : String) : String :=
  String.mk (s.data.foldr
    (fun c acc =>
      if c = dquoteChar then '\\' :: dquoteChar :: acc
      else if c = '\\' then '\\' :: '\\' :: acc
      else c :: acc)
    [])

/-- Join with comma separators. -/
def joinComma : List String → String
  | [] => ""
  | [x] => x
  | x :: y :: rest => x ++ "," ++ joinComma (y :: rest)

mutual

/-- The embedding of `JSON.stringify`: `.ok none` is the `undefined`
result, `.error` a thrown `TypeError`. -/
def jsonStringifyV : JSValue → Except String (Option String)
  | .null => .ok (some "null")
  | .undefined => .ok none
  | .bool b => .ok (some (if b then "true" else "false"))
  | .num n => .ok (some (toString n))
  | .str s => .ok (some (dqStr ++ jsonEscape s ++ dqStr))
  | .bigint _ => .error "TypeError: Do not know how to serialize a BigInt"
  | .arr xs => (jsonStringifyArr xs).map (fun parts => some ("[" ++ joinComma parts ++ "]"))
  | .obj fs => (jsonStringifyObj fs).map (fun parts => some ("\x7b" ++ joinComma parts ++ "\x7d"))

/-- Array elements: an `undefined` element serializes as `null`. -/
def jsonStringifyArr : List JSValue → Except String (List String)
  | [] => .ok []
  | x :: rest =>
    (jsonStringifyV x).bind
      (fun v => (jsonStringifyArr rest).map (fun r => v.getD "null" :: r))

/-- Object properties: an `undefined` property is omitted. -/
def jsonStringifyObj : List (String × JSValue) → Except String (List String)
  | [] => .ok []
  | (k, x) :: rest =>
    (jsonStringifyV x).bind
      (fun v =>
        (jsonStringifyObj rest).map
          (fun r =>
            match v with
            | some s => (dqStr ++ jsonEscape k ++ dqStr ++ ":" ++ s) :: r
            | none => r))

end

/-- The internal data store: `self.data`, keyed by sub-content id and
data id; a `none` value is a stored `undefined`. -/
abbrev UserStore : Type := List (String × List (String × Option String))

/-- Lodash `set(self.data, [subContentId, dataId], value)`. -/
def lodashSet (store : UserStore) (subContentId dataId : String)
    (v : Option String) : UserStore :=
  aset store subContentId (aset ((alookup store subContentId).getD []) dataId v)

/-- What one `setUserData` call did: the store it left, the error the
`errorCallback` received (when invoked), and whether `stateUpdated`
fired. -/
structure SetUserDataResult where
  data : UserStore
  errorCalledWith : Option String
  stateUpdated : Bool

/-- The embedding of the shimmed `H5P.setUserData`. -/
def setUserData (store : UserStore) (dataId : String) (v : JSValue)
    (subContentId : String) (errorCallbackIsFn : Bool) : SetUserDataResult :=
  match jsonStringifyV v with
  | .error e => ⟨store, if errorCallbackIsFn then some e else none, false⟩
  | .ok s => ⟨lodashSet store subContentId dataId s, none, true⟩

/-- C10: when serialization of the data argument throws, the supplied
`errorCallback` (when it is a function) is invoked with the error, the
store is left unchanged and `stateUpdated` does not fire; the store is
modified — at `[subContentId, dataId]`, with the serialized value — and
`stateUpdated` fires exactly when serialization succeeds. -/
theorem c10_setuserdata_serialization (store : UserStore) (dataId : String)
    (v : JSValue) (subContentId : String) (ecb : Bool) :
    (∀ e, jsonStringifyV v = Except.error e →
      (setUserData store dataId v subContentId ecb).data = store ∧
      (setUserData store dataId v subContentId ecb).stateUpdated = false ∧
      (setUserData store dataId v subContentId ecb).errorCalledWith =
        (if ecb then some e else none)) ∧
    (∀ s, jsonStringifyV v = Except.ok s →
      (setUserData store dataId v subContentId ecb).data =
        lodashSet store subContentId dataId s ∧
      (setUserData store dataId v subContentId ecb).stateUpdated = true ∧
      (setUserData store dataId v subContentId ecb).errorCalledWith = none) := by
  constructor
  · intro e he
    simp [setUserData, he]
  · intro s hs
    simp [setUserData, hs]

/-- C10 witness: serializing a BigInt throws, so the callback is
invoked with the TypeError, the store is untouched and no state-update
signal fires; a plain string value serializes and is stored. -/
theorem c10_setuserdata_witness :
    ((setUserData [] "progress" (JSValue.bigint 1) "0" true).data = [] ∧
      (setUserData [] "progress" (JSValue.bigint 1) "0" true).stateUpdated = false ∧
      (setUserData [] "progress" (JSValue.bigint 1) "0" true).errorCalledWith =
        (if true then some "TypeError: Do not know how to serialize a BigInt"
          else none)) ∧
    ((setUserData [] "progress" (JSValue.str "s") "0" true).data =
        lodashSet [] "0" "progress" (some (dqStr ++ jsonEscape "s" ++ dqStr)) ∧
      (setUserData [] "progress" (JSValue.str "s") "0" true).stateUpdated = true ∧
      (setUserData [] "progress" (JSValue.str "s") "0" true).errorCalledWith = none) :=
  ⟨(c10_setuserdata_serialization [] "progress" (JSValue.bigint 1) "0" true).1
      "TypeError: Do not know how to serialize a BigInt" (by simp [jsonStringifyV]),
    (c10_setuserdata_serialization [] "progress" (JSValue.str "s") "0" true).2
      (some (dqStr ++ jsonEscape "s" ++ dqStr)) (by simp [jsonStringifyV])⟩

end Kolibri
